import Mathlib

/-!
A shallow embedding of the QVD codec of qvd4js (`src/qvd-file.js`): the
`QvdSymbol` value model, the `QvdFileWriter` write pipeline
(`_buildSymbolTable`, `_buildIndexTable`, `_buildHeader`) and the
`QvdFileReader` read pipeline (`_parseHeader` delimiter search,
`_parseSymbolTable`, `_parseIndexTable`, `load`).

Modelling conventions:
* JavaScript numbers are modelled as rationals `ℚ` (IEEE doubles are a
  subset of `ℚ`; `Number.isInteger x` becomes `x.den = 1`).  The runtime's
  number formatting (`Number.prototype.toString`), numeric string parsing
  (`Number(s)` / `isNaN`), and the IEEE-754 binary64 byte codec
  (`Buffer.writeDoubleLE` / `readDoubleLE`) are parameters of the
  embedding (`JsRt`), since their bit-level semantics live outside the
  repository; theorems state the properties of these parameters that the
  JavaScript runtime guarantees where they are needed.
* Byte buffers are `List Nat` (each entry a byte value).
* JavaScript `null` and `undefined` cell values are both modelled by
  `Cell.null` (the codec treats them identically: both fail the
  `typeof raw === 'number'` test and both are falsy).
* Fallible code (`throw`) is modelled with `Except String`.  Places where
  the JavaScript would loop forever or crash on an out-of-bounds read are
  modelled as errors and are noted in the corresponding doc comments.
* Recursions are written with explicit fuel so that every definition
  reduces in the kernel; fuel is always instantiated large enough, and
  fuel-independence lemmas are proved where proofs need them.
-/

namespace Qvd

/-! ## Bit and byte utilities -/

/-- Binary digits of `n`, least-significant first (fuelled; `natBitsF n n`
is always fully evaluated since the iteration count is at most `n`). -/
def natBitsF : Nat → Nat → List Nat
  | _, 0 => []
  | 0, _ + 1 => []
  | f + 1, n + 1 => (n + 1) % 2 :: natBitsF f ((n + 1) / 2)

/-- Binary digits of `n`, least-significant first (empty for `0`). -/
def natBitsLSB (n : Nat) : List Nat := natBitsF n n

/-- Minimal binary digits of `n`, most-significant first (empty for `0`). -/
def natBitsMSB (n : Nat) : List Nat := (natBitsLSB n).reverse

/-- Value of a most-significant-first bit list (`parseInt(bits, 2)`). -/
def msbVal (l : List Nat) : Nat := l.foldl (fun a b => 2 * a + b) 0

/-- Value of a least-significant-first bit list: the reader's
`_convertBitsToInt32`, `bits.reduce((value, bit, index) => value + bit * 2^index, 0)`
(which is `0` on the empty list). -/
def convertBitsToInt32 (l : List Nat) : Nat := l.foldr (fun b acc => b + 2 * acc) 0

/-- The 8 bits of a byte, most-significant first: the reader's
`('00000000' + byte.toString(2)).slice(-8)` (which keeps the 8
least-significant binary digits, i.e. works on `byte % 256`). -/
def byteBits (b : Nat) : List Nat :=
  [b % 256 / 128 % 2, b % 256 / 64 % 2, b % 256 / 32 % 2, b % 256 / 16 % 2,
    b % 256 / 8 % 2, b % 256 / 4 % 2, b % 256 / 2 % 2, b % 256 % 2]

/-- Split a list into chunks of 8 (the writer's `paddedBits.match(/.{1,8}/g)`;
fuelled, `chunks8F l.length l` always completes). -/
def chunks8F : Nat → List Nat → List (List Nat)
  | _, [] => []
  | 0, _ :: _ => []
  | f + 1, b :: bs => ((b :: bs).take 8) :: chunks8F f ((b :: bs).drop 8)

/-- Split a bit list into chunks of 8, left to right. -/
def chunks8 (l : List Nat) : List (List Nat) := chunks8F l.length l

/-- The four bytes of `Buffer.writeInt32LE v` (two's complement,
little-endian).  Only meaningful for `-2^31 ≤ v < 2^31`; the `Except`
wrapper `writeInt32LE` below enforces Node's `RangeError`. -/
def int32Bytes (v : Int) : List Nat :=
  let u := (v % (4294967296 : Int)).toNat
  [u % 256, u / 256 % 256, u / 65536 % 256, u / 16777216 % 256]

/-- `Buffer.writeInt32LE`: Node throws a `RangeError` when the value does
not fit a signed 32-bit integer. -/
def writeInt32LE (v : Int) : Except String (List Nat) :=
  if -2147483648 ≤ v ∧ v ≤ 2147483647 then .ok (int32Bytes v)
  else .error "RangeError: The value of value is out of range."

/-- `Buffer.readIntLE(0, bs.length)`: little-endian two's-complement read
over `bs.length` bytes (`0` for the empty list; the Node call throws on an
empty buffer, which call sites below guard as an error). -/
def readIntLEList (bs : List Nat) : Int :=
  let k := bs.length
  let u : Nat := bs.foldr (fun b acc => b % 256 + 256 * acc) 0
  if u < 2 ^ (8 * k - 1) ∨ k = 0 then (u : Int) else (u : Int) - (2 : Int) ^ (8 * k)

/-! ## UTF-8 -/

/-- UTF-8 encoding of a single character (`Buffer.from(s, 'utf-8')`). -/
def utf8EncodeChar (c : Char) : List Nat :=
  let n := c.toNat
  if n < 128 then [n]
  else if n < 2048 then [192 + n / 64, 128 + n % 64]
  else if n < 65536 then [224 + n / 4096, 128 + n / 64 % 64, 128 + n % 64]
  else [240 + n / 262144, 128 + n / 4096 % 64, 128 + n / 64 % 64, 128 + n % 64]

/-- UTF-8 encoding of a string. -/
def utf8Encode (s : String) : List Nat := (s.data.map utf8EncodeChar).flatten

/-- The Unicode replacement character U+FFFD. -/
def replChar : Char := Char.ofNat 65533

/-- Fuelled UTF-8 decoder (`buffer.toString('utf-8')`): well-formed
sequences decode to their code points; malformed bytes (including overlong
forms and surrogates, which Node rejects) yield U+FFFD.  The exact number
of replacement characters Node emits for a malformed run is approximated
(one per leading byte); all decoding done in the proofs below is of
well-formed output of `utf8Encode`. -/
def utf8DecodeF : Nat → List Nat → List Char
  | 0, _ => []
  | _, [] => []
  | f + 1, b :: rest =>
    if b < 128 then Char.ofNat b :: utf8DecodeF f rest
    else if b < 194 then replChar :: utf8DecodeF f rest
    else if b < 224 then
      match rest with
      | b1 :: r2 =>
        if 128 ≤ b1 ∧ b1 < 192 then
          Char.ofNat ((b - 192) * 64 + (b1 - 128)) :: utf8DecodeF f r2
        else replChar :: utf8DecodeF f rest
      | [] => [replChar]
    else if b < 240 then
      match rest with
      | b1 :: b2 :: r3 =>
        if (128 ≤ b1 ∧ b1 < 192) ∧ (128 ≤ b2 ∧ b2 < 192) ∧
            (2048 ≤ (b - 224) * 4096 + (b1 - 128) * 64 + (b2 - 128)) ∧
            ¬(55296 ≤ (b - 224) * 4096 + (b1 - 128) * 64 + (b2 - 128) ∧
              (b - 224) * 4096 + (b1 - 128) * 64 + (b2 - 128) < 57344) then
          Char.ofNat ((b - 224) * 4096 + (b1 - 128) * 64 + (b2 - 128)) :: utf8DecodeF f r3
        else replChar :: utf8DecodeF f rest
      | _ => [replChar]
    else if b < 245 then
      match rest with
      | b1 :: b2 :: b3 :: r4 =>
        if (128 ≤ b1 ∧ b1 < 192) ∧ (128 ≤ b2 ∧ b2 < 192) ∧ (128 ≤ b3 ∧ b3 < 192) ∧
            (65536 ≤ (b - 240) * 262144 + (b1 - 128) * 4096 + (b2 - 128) * 64 + (b3 - 128)) ∧
            ((b - 240) * 262144 + (b1 - 128) * 4096 + (b2 - 128) * 64 + (b3 - 128) < 1114112) then
          Char.ofNat ((b - 240) * 262144 + (b1 - 128) * 4096 + (b2 - 128) * 64 + (b3 - 128)) ::
            utf8DecodeF f r4
        else replChar :: utf8DecodeF f rest
      | _ => [replChar]
    else replChar :: utf8DecodeF f rest

/-- UTF-8 decoding of a byte list. -/
def utf8Decode (l : List Nat) : String := ⟨utf8DecodeF l.length l⟩

/-- `true` when the string contains no NUL character (a NUL inside a
string collides with the wire format's string terminator). -/
def noNul (s : String) : Bool := s.data.all (fun c => c.toNat ≠ 0)

/-! ## Generic JavaScript helpers -/

/-- Insertion-ordered deduplication: `Array.from(new Set(l))` keeps the
first occurrence of each value, in order. -/
def jsSetDedup {α : Type} [DecidableEq α] (l : List α) : List α :=
  l.foldl (fun acc v => if v ∈ acc then acc else acc ++ [v]) []

/-- `Array.prototype.findIndex`: index of the first match, `-1` if none. -/
def jsFindIndex {α : Type} (p : α → Bool) (l : List α) : Int :=
  match l.findIdx? p with
  | some i => (i : Int)
  | none => -1

/-- `Buffer.prototype.indexOf` with a byte-sequence needle: offset of the
first full occurrence, `-1` if the needle does not occur. -/
def jsIndexOfSeq (l pat : List Nat) : Int :=
  match (List.range (l.length + 1)).find? (fun i => ((l.drop i).take pat.length) == pat) with
  | some i => (i : Int)
  | none => -1

/-! ## Data model -/

/-- A table cell as observed through the public API: a JavaScript number
(`ℚ`), a string, or `null`/`undefined` (conflated; see the module
comment). -/
inductive Cell : Type
  | num (q : ℚ)
  | str (s : String)
  | null
deriving DecidableEq, Repr

/-- `QvdSymbol`: the source's three nullable slots `_intValue`,
`_doubleValue`, `_stringValue`. -/
structure QvdSymbol : Type where
  intValue : Option Int
  doubleValue : Option ℚ
  stringValue : Option String
deriving DecidableEq, Repr

/-- JavaScript truthiness of a number slot: `null`/`undefined` and `0` are
falsy (`NaN`, also falsy, does not occur in the `ℚ` model). -/
def truthyNum (v : Option ℚ) : Bool :=
  match v with
  | none => false
  | some q => q ≠ 0

/-- JavaScript truthiness of an int slot. -/
def truthyInt (v : Option Int) : Bool :=
  match v with
  | none => false
  | some n => n ≠ 0

/-- JavaScript truthiness of a string slot: `null`/`undefined` and the
empty string are falsy. -/
def truthyStr (v : Option String) : Bool :=
  match v with
  | none => false
  | some s => s ≠ ""

/-- `QvdSymbol.toPrimaryValue`: the string value if non-null, else the
integer value, else the double value, else `null`. -/
def QvdSymbol.toPrimaryValue (sym : QvdSymbol) : Cell :=
  match sym.stringValue with
  | some s => .str s
  | none =>
    match sym.intValue with
    | some n => .num (n : ℚ)
    | none =>
      match sym.doubleValue with
      | some d => .num d
      | none => .null

/-- `QvdSymbol.equals`: component-wise `===` comparison of the three
slots (`null === null` is `true`; `NaN` does not occur in the model). -/
def QvdSymbol.equals (a b : QvdSymbol) : Bool :=
  decide (a.intValue = b.intValue) && decide (a.doubleValue = b.doubleValue) &&
    decide (a.stringValue = b.stringValue)

/-- The JavaScript-runtime conversions the codec calls but which are not
part of the repository: number formatting (`raw.toString()`), numeric
string parsing (`Number(s)`, with `none` for `NaN`), and the IEEE-754
binary64 byte codec (`Buffer.writeDoubleLE` / `Buffer.readDoubleLE`).
Theorems are stated for every `JsRt`, with the properties the real
runtime guarantees taken as hypotheses where needed. -/
structure JsRt : Type where
  numToStr : ℚ → String
  strToNum : String → Option ℚ
  dblToBytes : ℚ → List Nat
  dblOfBytes : List Nat → ℚ

/-- `QvdDataFrame`: the in-memory table (column names plus row-major
data). -/
structure QvdDataFrame : Type where
  columns : List String
  data : List (List Cell)
deriving DecidableEq, Repr

/-- One `QvdFieldHeader` of the XML header, with its numeric attributes
already parsed (`parseInt(..., 10)`). -/
structure QvdFieldMeta : Type where
  fieldName : String
  offset : Nat
  length : Nat
  bitOffset : Nat
  bitWidth : Nat
  bias : Int
  noOfSymbols : Nat
deriving DecidableEq, Repr

/-- The `QvdTableHeader` fields the binary codec consumes.  The XML
serialization itself is performed by the external `xml2js` library, which
round-trips this record (numeric values travel as decimal text); the
embedding therefore passes the parsed record directly. -/
structure QvdLayout : Type where
  fields : List QvdFieldMeta
  noOfRecords : Nat
  recordByteSize : Nat
  offset : Nat
  length : Nat
deriving DecidableEq, Repr

/-! ## Writer (`QvdFileWriter`) -/

/-- `QvdSymbol.toByteRepresentation`: the branch conditions are JavaScript
truthiness tests on the raw slots (so an integer `0`, a double `0`, or an
empty string behaves like an absent component).  `writeInt32LE` models
Node's `RangeError` for out-of-range integers. -/
def QvdSymbol.toByteRepresentation (rt : JsRt) (sym : QvdSymbol) : Except String (List Nat) :=
  if truthyInt sym.intValue ∧ truthyStr sym.stringValue then do
    let ib ← writeInt32LE (sym.intValue.getD 0)
    .ok ([5] ++ ib ++ utf8Encode (sym.stringValue.getD "") ++ [0])
  else if truthyNum sym.doubleValue ∧ truthyStr sym.stringValue then
    .ok ([6] ++ rt.dblToBytes (sym.doubleValue.getD 0) ++
      utf8Encode (sym.stringValue.getD "") ++ [0])
  else if truthyInt sym.intValue then do
    let ib ← writeInt32LE (sym.intValue.getD 0)
    .ok ([1] ++ ib)
  else if truthyNum sym.doubleValue then
    .ok ([2] ++ rt.dblToBytes (sym.doubleValue.getD 0))
  else if truthyStr sym.stringValue then
    .ok ([4] ++ utf8Encode (sym.stringValue.getD "") ++ [0])
  else
    .error "The symbol does not contain any value."

/-- `QvdFileWriter._convertRawToSymbol`: whole numbers become dual
integer symbols, other numbers dual double symbols, everything else a
string symbol (`null`/`undefined` land in the string slot). -/
def convertRawToSymbol (rt : JsRt) : Cell → QvdSymbol
  | .num q =>
    if q.den = 1 then ⟨some q.num, none, some (rt.numToStr q)⟩
    else ⟨none, some q, some (rt.numToStr q)⟩
  | .str s => ⟨none, none, some s⟩
  | .null => ⟨none, none, none⟩

/-- `row[colIdx]`: an out-of-bounds access yields `undefined`, modelled as
`Cell.null`. -/
def cellAt (row : List Cell) (colIdx : Nat) : Cell := (row.get? colIdx).getD .null

/-- The raw values of one column:
`this._df.data.map((row) => row[this._df.columns.indexOf(column)])`. -/
def columnValues (df : QvdDataFrame) (colIdx : Nat) : List Cell :=
  df.data.map (fun row => cellAt row colIdx)

/-- The body of `_buildSymbolTable`'s per-column loop, with the symbol
buffer offset threaded explicitly (the source accumulates the buffer and
computes `offset = total - length`, which is the running total used
here).  Returns the per-column symbol lists, the per-column
`(Offset, Length)` metadata and the symbol buffer. -/
def buildSymbolColumns (rt : JsRt) (df : QvdDataFrame) :
    List String → Nat → Except String (List (List QvdSymbol) × List (Nat × Nat) × List Nat)
  | [], _ => .ok ([], [], [])
  | column :: restCols, off =>
    match ((jsSetDedup (columnValues df (df.columns.findIdx (fun c => c == column)))).map
        (convertRawToSymbol rt)).mapM (QvdSymbol.toByteRepresentation rt) with
    | .error e => .error e
    | .ok bufs =>
      match buildSymbolColumns rt df restCols (off + bufs.flatten.length) with
      | .error e => .error e
      | .ok (symTs, metas, bufRest) =>
        .ok ((jsSetDedup (columnValues df (df.columns.findIdx (fun c => c == column)))).map
            (convertRawToSymbol rt) :: symTs,
          (off, bufs.flatten.length) :: metas, bufs.flatten ++ bufRest)

/-- `QvdFileWriter._buildSymbolTable`. -/
def buildSymbolTable (rt : JsRt) (df : QvdDataFrame) :
    Except String (List (List QvdSymbol) × List (Nat × Nat) × List Nat) :=
  buildSymbolColumns rt df df.columns 0

/-- `QvdFileWriter._convertInt32ToBits(value, 32)` for a non-negative
index: LSB-first binary digits (JavaScript renders `0` as the single
digit `"0"`), padded with zeros, truncated to 32 entries, then reversed
to MSB-first. -/
def jsToBits32 (n : Nat) : List Nat :=
  (((if n = 0 then [0] else natBitsLSB n) ++ List.replicate 32 0).take 32).reverse

/-- The per-index bit string of `_buildIndexTable`:
`bits.join('').replace(/^0+/, '') || '0'`. -/
def bitString (n : Nat) : List Nat :=
  if (jsToBits32 n).dropWhile (fun b => b == 0) = [] then [0]
  else (jsToBits32 n).dropWhile (fun b => b == 0)

/-- `String.prototype.padStart(w, '0')` on a bit string. -/
def padZeros (w : Nat) (l : List Nat) : List Nat := List.replicate (w - l.length) 0 ++ l

/-- The symbol indices `_buildIndexTable` assigns to one row: for each
column, the `findIndex` of the row value's symbol in that column's symbol
sequence.  A negative `findIndex` (value missing from the symbol table)
would make the source build a malformed bit string out of `NaN` digits;
it is modelled as an error and proved unreachable for tables produced by
`_buildSymbolTable`. -/
def writerColumnIndex (rt : JsRt) (df : QvdDataFrame) (symT : List (List QvdSymbol))
    (row : List Cell) (column : String) : Except String Nat :=
  match jsFindIndex (fun s => s.equals (convertRawToSymbol rt
      (cellAt row (df.columns.findIdx (fun c => c == column)))))
      ((symT.get? (df.columns.findIdx (fun c => c == column))).getD []) with
  | .ofNat k => .ok k
  | .negSucc _ => .error "The symbol table does not contain the row value."

def writerRowIndices (rt : JsRt) (df : QvdDataFrame) (symT : List (List QvdSymbol))
    (row : List Cell) : Except String (List Nat) :=
  df.columns.mapM (writerColumnIndex rt df symT row)

/-- The per-row, per-column symbol indices of the whole table. -/
def writerIndexRows (rt : JsRt) (df : QvdDataFrame) (symT : List (List QvdSymbol)) :
    Except String (List (List Nat)) :=
  df.data.mapM (writerRowIndices rt df symT)

/-- Per-column `BitWidth`: `Math.max(...)` of the per-row bit-string
lengths.  Every length is at least 1, and for an empty row list the
JavaScript value `-Infinity` is never observed (no row is packed or
decoded); the fold with base 0 is the faithful value in every observable
case. -/
def writerBitWidth (rowsBits : List (List (List Nat))) (c : Nat) : Nat :=
  (rowsBits.map (fun rb => ((rb.get? c).getD []).length)).foldl Nat.max 0

/-- Per-column `BitOffset`: the sum of the bit widths of the previous
columns. -/
def writerBitOffset (widths : List Nat) (c : Nat) : Nat := (widths.take c).sum

/-- Packing one row of `_buildIndexTable`: pad each column's bit string
to the column width, reverse the column order, join, left-pad to a byte
multiple, split into bytes (MSB-first per byte) and reverse the byte
order.  An empty joined bit string makes the source's regex `match`
return `null` and its `assert` throw. -/
def rowPackedBits (widths : List Nat) (rbits : List (List Nat)) : List Nat :=
  List.replicate ((8 - ((List.zipWith padZeros widths rbits).reverse.flatten.length) % 8) % 8) 0 ++
    (List.zipWith padZeros widths rbits).reverse.flatten

def packRow (widths : List Nat) (rbits : List (List Nat)) : Except String (List Nat) :=
  if (rowPackedBits widths rbits).length = 0 then
    .error "Byte conversion of bit indices failed."
  else .ok (((chunks8 (rowPackedBits widths rbits)).map msbVal).reverse)

/-- The per-row bit strings of the whole table. -/
def writerRowsBits (idxRows : List (List Nat)) : List (List (List Nat)) :=
  idxRows.map (fun r => r.map bitString)

/-- All column widths. -/
def writerWidths (df : QvdDataFrame) (rowsBits : List (List (List Nat))) : List Nat :=
  (List.range df.columns.length).map (writerBitWidth rowsBits)

/-- The per-column `(BitOffset, BitWidth, Bias)` metadata. -/
def writerMetas (df : QvdDataFrame) (widths : List Nat) : List (Nat × Nat × Int) :=
  (List.range df.columns.length).map
    (fun c => (writerBitOffset widths c, (widths.get? c).getD 0, (0 : Int)))

/-- `QvdFileWriter._buildIndexTable`: returns the assigned symbol
indices, the index buffer, the per-column `(BitOffset, BitWidth, Bias)`
metadata and `RecordByteSize`.  With no rows the source computes
`RecordByteSize = 0/0 = NaN`, which is never observed (the header value
is only used to step through records); the model uses `Nat` division. -/
def buildIndexTable (rt : JsRt) (df : QvdDataFrame) (symT : List (List QvdSymbol)) :
    Except String (List (List Nat) × List Nat × List (Nat × Nat × Int) × Nat) :=
  match writerIndexRows rt df symT with
  | .error e => .error e
  | .ok idxRows =>
    match (writerRowsBits idxRows).mapM
        (packRow (writerWidths df (writerRowsBits idxRows))) with
    | .error e => .error e
    | .ok records =>
      .ok (idxRows, records.flatten, writerMetas df (writerWidths df (writerRowsBits idxRows)),
        records.flatten.length / idxRows.length)

/-- `QvdFileWriter._buildHeader`, restricted to the fields the binary
codec consumes (creation time, table name etc. do not influence the
claims).  With no columns the source computes a `NaN` offset from
`undefined` metadata; the model uses 0, which is likewise unobservable
(theorems assume at least one column). -/
def buildHeaderLayout (df : QvdDataFrame) (symT : List (List QvdSymbol))
    (symMetas : List (Nat × Nat)) (idxMetas : List (Nat × Nat × Int))
    (indexBufferLen : Nat) (rowCount : Nat) (rbs : Nat) : QvdLayout :=
  { fields := (List.range df.columns.length).map (fun i =>
      { fieldName := (df.columns.get? i).getD ""
        bitOffset := ((idxMetas.get? i).getD (0, 0, 0)).1
        bitWidth := ((idxMetas.get? i).getD (0, 0, 0)).2.1
        bias := ((idxMetas.get? i).getD (0, 0, 0)).2.2
        noOfSymbols := ((symT.get? i).getD []).length
        offset := ((symMetas.get? i).getD (0, 0)).1
        length := ((symMetas.get? i).getD (0, 0)).2 })
    noOfRecords := rowCount
    recordByteSize := rbs
    offset := match symMetas.getLast? with
      | some m => m.1 + m.2
      | none => 0
    length := indexBufferLen }

/-- `QvdFileWriter.save`, up to the XML serialization (performed by the
external `xml2js` library) and the file write: builds the symbol table,
the index table and the header layout, and returns the layout together
with the bytes that follow the header terminator in the file (symbol
buffer then index buffer). -/
def save (rt : JsRt) (df : QvdDataFrame) : Except String (QvdLayout × List Nat) :=
  match buildSymbolTable rt df with
  | .error e => .error e
  | .ok (symT, symMetas, symBuf) =>
    match buildIndexTable rt df symT with
    | .error e => .error e
    | .ok (idxRows, idxBuf, idxMetas, rbs) =>
      .ok (buildHeaderLayout df symT symMetas idxMetas idxBuf.length idxRows.length rbs,
        symBuf ++ idxBuf)

/-! ## Reader (`QvdFileReader`) -/

/-- The delimiter search of `QvdFileReader._parseHeader`: look for the
three bytes `0x0D 0x0A 0x00` and test the result with
`if (!headerDelimiterIndex)`, a truthiness test that only fires on offset
`0` (the not-found result `-1` is truthy).  On success the source
proceeds with `headerEndIndex = headerDelimiterIndex + 3` (so `2` when
the delimiter is absent). -/
def parseHeaderDelimiter (buf : List Nat) : Except String Nat :=
  let headerDelimiterIndex := jsIndexOfSeq buf [13, 10, 0]
  if headerDelimiterIndex = 0 then
    .error "The XML header section does not exist or is not properly delimited from the binary data."
  else
    .ok (headerDelimiterIndex + 3).toNat

/-- The bytes of a wire string up to (not including) the terminating
`0x00`, or `none` when no `0x00` follows: the source's
`while (symbolBuffer[pointer] !== 0)` scan then runs off the end of the
buffer and never terminates (reading `undefined` forever), modelled as a
parse failure. -/
def takeUntilZero (l : List Nat) : Option (List Nat) :=
  if l.any (fun b => b == 0) then some (l.takeWhile (fun b => b ≠ 0)) else none

/-- One iteration of `_parseSymbolTable`'s symbol loop, reading at the
head of `bytes` (the suffix of the symbol buffer at the current pointer).
Returns the symbol and the number of bytes by which the pointer advances
(type byte, payload, and the `for` increment).  Reading the type byte
past the end of the buffer makes the source crash on
`undefined.toString(16)`; `Buffer.readIntLE`/`readDoubleLE` on a
too-short buffer throw a `RangeError`; both are modelled as errors. -/
def parseOneSymbol (rt : JsRt) (bytes : List Nat) : Except String (QvdSymbol × Nat) :=
  match bytes with
  | [] => .error "Unknown data type: undefined"
  | t :: rest =>
    if t = 1 then
      let bd := rest.take 4
      if bd.length = 0 then .error "RangeError: attempt to access memory outside buffer bounds"
      else .ok (⟨some (readIntLEList bd), none, none⟩, 5)
    else if t = 2 then
      let bd := rest.take 8
      if bd.length < 8 then .error "RangeError: attempt to access memory outside buffer bounds"
      else .ok (⟨none, some (rt.dblOfBytes bd), none⟩, 9)
    else if t = 4 then
      match takeUntilZero rest with
      | none => .error "Unterminated string symbol."
      | some sb => .ok (⟨none, none, some (utf8Decode sb)⟩, sb.length + 2)
    else if t = 5 then
      let ib := rest.take 4
      if ib.length = 0 then .error "RangeError: attempt to access memory outside buffer bounds"
      else
        match takeUntilZero (rest.drop 4) with
        | none => .error "Unterminated string symbol."
        | some sb => .ok (⟨some (readIntLEList ib), none, some (utf8Decode sb)⟩, sb.length + 6)
    else if t = 6 then
      let bd := rest.take 8
      if bd.length < 8 then .error "RangeError: attempt to access memory outside buffer bounds"
      else
        match takeUntilZero (rest.drop 8) with
        | none => .error "Unterminated string symbol."
        | some sb =>
          .ok (⟨none, some (rt.dblOfBytes bd), some (utf8Decode sb)⟩, sb.length + 10)
    else .error ("Unknown data type: " ++ toString t)

/-- The symbol loop of `_parseSymbolTable` over one column's area:
`for (let pointer = symbolsOffset; pointer < symbolsOffset + symbolsLength; ...)`,
with `bytes` the symbol-buffer suffix at `symbolsOffset` and `budget`
the remaining `symbolsLength`.  Fuelled: every symbol advances the
pointer by at least one, so `fuel = budget` always suffices. -/
def parseSymbolsF (rt : JsRt) : Nat → List Nat → Nat → Except String (List QvdSymbol)
  | _, _, 0 => .ok []
  | 0, _, _ + 1 => .error "Out of fuel."
  | f + 1, bytes, b + 1 => do
    let (sym, c) ← parseOneSymbol rt bytes
    let rest ← parseSymbolsF rt f (bytes.drop c) (b + 1 - c)
    .ok (sym :: rest)

/-- Parse one column's symbol area. -/
def parseSymbols (rt : JsRt) (bytes : List Nat) (budget : Nat) : Except String (List QvdSymbol) :=
  parseSymbolsF rt budget bytes budget

/-- `QvdFileReader._parseSymbolTable`: one symbol list per field, each
parsed from the field's `(Offset, Length)` slice of the symbol buffer. -/
def parseSymbolTables (rt : JsRt) (fields : List QvdFieldMeta) (symbolBuffer : List Nat) :
    Except String (List (List QvdSymbol)) :=
  fields.mapM (fun fm => parseSymbols rt (symbolBuffer.drop fm.offset) fm.length)

/-- The bit mask of one index record: reverse the record's bytes, expand
each byte to 8 bits MSB-first, and reverse the resulting bit string
(yielding a little-endian bit array). -/
def recordBits (record : List Nat) : List Nat :=
  ((record.reverse.map byteBits).flatten).reverse

/-- Decoding one index record: for each field, slice
`[BitOffset, BitOffset + BitWidth)` out of the mask (index `0` when
`BitWidth === 0`), convert LSB-first, and add `Bias`. -/
def decodeRecordRow (fields : List QvdFieldMeta) (record : List Nat) : List Int :=
  let mask := recordBits record
  fields.map (fun fm =>
    (if fm.bitWidth = 0 then 0
     else (convertBitsToInt32 ((mask.drop fm.bitOffset).take fm.bitWidth) : Int)) + fm.bias)

/-- The record loop of `_parseIndexTable`:
`for (let pointer = 0; pointer < indexBuffer.length; pointer += recordSize)`.
A record size of `0` would loop forever on a non-empty buffer (modelled
as an error).  Fuelled by the buffer length, which always suffices. -/
def parseRecordsF (fields : List QvdFieldMeta) (rsize : Nat) :
    Nat → List Nat → Except String (List (List Int))
  | _, [] => .ok []
  | 0, _ :: _ => .error "Out of fuel."
  | f + 1, b :: bs =>
    if rsize = 0 then .error "Record size is zero."
    else do
      let rest ← parseRecordsF fields rsize f ((b :: bs).drop rsize)
      .ok (decodeRecordRow fields ((b :: bs).take rsize) :: rest)

/-- `QvdFileReader._parseIndexTable` on the index buffer. -/
def parseIndexTable (fields : List QvdFieldMeta) (rsize : Nat) (bytes : List Nat) :
    Except String (List (List Int)) :=
  parseRecordsF fields rsize bytes.length bytes

/-- The symbol lookup of `load`'s `getRow`:
`this._symbolTable?.[fieldIndex][symbolIndex]` — `undefined` (here
`none`) when either index is out of bounds. -/
def lookupSymbol (symT : List (List QvdSymbol)) (fieldIndex : Nat) (symbolIndex : Int) :
    Option QvdSymbol :=
  (symT.get? fieldIndex).bind (fun col =>
    if symbolIndex < 0 then none else col.get? symbolIndex.toNat)

/-- The value `getRow` places in a cell: the symbol's primary value,
except that a string primary value accepted by `Number(value)` (i.e. not
`NaN`) is replaced by that number; a missing symbol yields `undefined`
(`Cell.null`). -/
def symbolCellValue (rt : JsRt) (sym? : Option QvdSymbol) : Cell :=
  match sym? with
  | none => .null
  | some sym =>
    match sym.toPrimaryValue with
    | .str s =>
      match rt.strToNum s with
      | some q => .num q
      | none => .str s
    | v => v

/-- `getRow`: map each symbol index of the row to its cell value. -/
def getRowCells (rt : JsRt) (symT : List (List QvdSymbol)) (idxRow : List Int) : List Cell :=
  idxRow.enum.map (fun p => symbolCellValue rt (lookupSymbol symT p.1 p.2))

/-- `QvdFileReader.load`, from the parsed header layout and the bytes
following the header terminator: slice the symbol buffer
(`[headerEnd, headerEnd + Offset)`) and the index buffer (the source
takes `Length + 1` bytes, clamped to the end of the file), parse both
tables, and materialize the rows. -/
def load (rt : JsRt) (layout : QvdLayout) (body : List Nat) : Except String QvdDataFrame :=
  match parseSymbolTables rt layout.fields (body.take layout.offset) with
  | .error e => .error e
  | .ok symT =>
    match parseIndexTable layout.fields layout.recordByteSize
        ((body.drop layout.offset).take (layout.length + 1)) with
    | .error e => .error e
    | .ok idxT =>
      .ok ⟨layout.fields.map (fun fm => fm.fieldName), idxT.map (getRowCells rt symT)⟩

/-! ## A concrete runtime instance (used by the witnesses) -/

/-- Decimal digits to a natural number (`none` on any non-digit or on the
empty digit list). -/
def parseNatDigits (cs : List Char) : Option Nat :=
  if cs ≠ [] ∧ cs.all Char.isDigit then
    some (cs.foldl (fun a c => 10 * a + (c.toNat - 48)) 0)
  else none

/-- A small concrete model of `Number(s)`: the empty string is `0` (as in
JavaScript), decimal integer strings parse, everything else is `NaN`. -/
def testStrToNum (s : String) : Option ℚ :=
  if s = "" then some 0
  else
    match s.data with
    | '-' :: ds => (parseNatDigits ds).map (fun n => -(n : ℚ))
    | ds => (parseNatDigits ds).map (fun n => (n : ℚ))

/-- A small concrete model of `Number.prototype.toString`, adequate for
whole numbers (the only numbers the witnesses use). -/
def testNumToStr (q : ℚ) : String := if q.den = 1 then toString q.num else "?"

/-- The concrete runtime instance used by witnesses and counterexamples. -/
def testRt : JsRt :=
  { numToStr := testNumToStr
    strToNum := testStrToNum
    dblToBytes := fun _ => List.replicate 8 0
    dblOfBytes := fun _ => 0 }

/-- The cell values for which encode-then-decode restores the cell: no
`null`/`undefined` (their symbols have no emittable component); strings
must be non-numeric (`Number(s)` is `NaN`, automatically true of strings
produced by a decode) and NUL-free; whole numbers must fit a signed
32-bit integer (otherwise `writeInt32LE` throws); number formatting must
round-trip through `Number(·)` (true of the JavaScript runtime) and
produce non-empty NUL-free text; non-integral numbers must serialize to 8
double bytes. -/
def goodCell (rt : JsRt) : Cell → Prop
  | .null => False
  | .str s => rt.strToNum s = none ∧ noNul s = true ∧ s ≠ ""
  | .num q =>
    (q.den = 1 → -2147483648 ≤ q.num ∧ q.num ≤ 2147483647) ∧
      rt.strToNum (rt.numToStr q) = some q ∧ rt.numToStr q ≠ "" ∧
      noNul (rt.numToStr q) = true ∧ (q.den ≠ 1 → (rt.dblToBytes q).length = 8)

instance (rt : JsRt) : (c : Cell) → Decidable (goodCell rt c)
  | .null => by unfold goodCell; exact inferInstance
  | .str _ => by unfold goodCell; exact inferInstance
  | .num _ => by unfold goodCell; exact inferInstance

instance {ε α : Type} [DecidableEq ε] [DecidableEq α] : DecidableEq (Except ε α) := fun a b =>
  match a, b with
  | .ok x, .ok y =>
    if h : x = y then .isTrue (by rw [h]) else .isFalse (by intro hc; cases hc; exact h rfl)
  | .error x, .error y =>
    if h : x = y then .isTrue (by rw [h]) else .isFalse (by intro hc; cases hc; exact h rfl)
  | .ok _, .error _ => .isFalse (by intro hc; cases hc)
  | .error _, .ok _ => .isFalse (by intro hc; cases hc)

/-! ## Lemmas: binary digit lists -/

theorem natBitsF_fuel : ∀ (n f f' : Nat), n ≤ f → n ≤ f' → natBitsF f n = natBitsF f' n := by
  intro n
  induction n using Nat.strong_induction_on with
  | _ n ih =>
    intro f f' hf hf'
    match n, f, f' with
    | 0, f, f' => cases f <;> cases f' <;> rfl
    | n + 1, f + 1, f' + 1 =>
      show (n + 1) % 2 :: natBitsF f ((n + 1) / 2) = (n + 1) % 2 :: natBitsF f' ((n + 1) / 2)
      exact congrArg _ (ih ((n + 1) / 2) (by omega) f f' (by omega) (by omega))

theorem natBitsLSB_succ (n : Nat) :
    natBitsLSB (n + 1) = (n + 1) % 2 :: natBitsLSB ((n + 1) / 2) := by
  show natBitsF (n + 1) (n + 1) = _
  show (n + 1) % 2 :: natBitsF n ((n + 1) / 2) = _
  exact congrArg _ (natBitsF_fuel ((n + 1) / 2) n ((n + 1) / 2) (by omega) (le_refl _))

theorem convertBits_cons (b : Nat) (l : List Nat) :
    convertBitsToInt32 (b :: l) = b + 2 * convertBitsToInt32 l := rfl

theorem convertBits_natBitsLSB (n : Nat) : convertBitsToInt32 (natBitsLSB n) = n := by
  induction n using Nat.strong_induction_on with
  | _ n ih =>
    match n with
    | 0 => rfl
    | n + 1 =>
      rw [natBitsLSB_succ, convertBits_cons, ih ((n + 1) / 2) (by omega)]
      omega

theorem natBitsLSB_le_one (n : Nat) : ∀ b ∈ natBitsLSB n, b ≤ 1 := by
  induction n using Nat.strong_induction_on with
  | _ n ih =>
    match n with
    | 0 => intro b hb; cases hb
    | n + 1 =>
      rw [natBitsLSB_succ]
      intro b hb
      rcases List.mem_cons.1 hb with h | h
      · omega
      · exact ih ((n + 1) / 2) (by omega) b h

theorem natBitsLSB_ne_nil (n : Nat) (h : 1 ≤ n) : natBitsLSB n ≠ [] := by
  match n, h with
  | n + 1, _ => rw [natBitsLSB_succ]; simp

theorem natBitsLSB_getLast? (n : Nat) (h : 1 ≤ n) : (natBitsLSB n).getLast? = some 1 := by
  induction n using Nat.strong_induction_on with
  | _ n ih =>
    match n, h with
    | n + 1, _ =>
      rw [natBitsLSB_succ]
      by_cases h2 : (n + 1) / 2 = 0
      · have hn : n = 0 := by omega
        subst hn
        rfl
      · have hne := natBitsLSB_ne_nil ((n + 1) / 2) (by omega)
        cases hl : natBitsLSB ((n + 1) / 2) with
        | nil => exact absurd hl hne
        | cons a t =>
          rw [List.getLast?_cons_cons]
          rw [← hl, ih ((n + 1) / 2) (by omega) (by omega)]

theorem length_natBitsLSB_le (m : Nat) : ∀ (n : Nat), n < 2 ^ m → (natBitsLSB n).length ≤ m := by
  induction m with
  | zero => intro n h; interval_cases n; exact Nat.le_refl 0
  | succ m ih =>
    intro n h
    match n with
    | 0 => exact Nat.zero_le _
    | n + 1 =>
      rw [natBitsLSB_succ, List.length_cons]
      have h2 : (n + 1) / 2 < 2 ^ m := by
        have : (2 : Nat) ^ (m + 1) = 2 * 2 ^ m := by ring
        omega
      exact Nat.succ_le_succ (ih _ h2)

theorem length_natBitsLSB_clog (n : Nat) (h : 1 ≤ n) :
    (natBitsLSB n).length = Nat.clog 2 (n + 1) := by
  induction n using Nat.strong_induction_on with
  | _ n ih =>
    match n, h with
    | n + 1, _ =>
      rw [natBitsLSB_succ, List.length_cons]
      by_cases h2 : (n + 1) / 2 = 0
      · have hn : n = 0 := by omega
        subst hn
        have hc : Nat.clog 2 2 = 1 := by
          rw [Nat.clog_of_two_le (by omega) (by omega)]
          norm_num
        have hz : natBitsLSB ((0 + 1) / 2) = [] := rfl
        rw [hz]
        simpa using hc.symm
      · rw [ih ((n + 1) / 2) (by omega) (by omega)]
        rw [Nat.clog_of_two_le (b := 2) (n := n + 2) (by omega) (by omega)]
        have harg : (n + 2 + 2 - 1) / 2 = (n + 1) / 2 + 1 := by omega
        rw [harg]

theorem msbVal_reverse (l : List Nat) : msbVal l.reverse = convertBitsToInt32 l := by
  induction l with
  | nil => rfl
  | cons b t ih =>
    rw [List.reverse_cons, convertBits_cons, ← ih]
    show msbVal (t.reverse ++ [b]) = b + 2 * msbVal t.reverse
    unfold msbVal
    rw [List.foldl_append]
    show 2 * List.foldl (fun a b => 2 * a + b) 0 t.reverse + b = _
    omega

theorem convertBits_reverse (l : List Nat) : convertBitsToInt32 l.reverse = msbVal l := by
  have h := msbVal_reverse l.reverse
  rw [List.reverse_reverse] at h
  exact h.symm

theorem foldl_msb_replicate_zero (k : Nat) :
    List.foldl (fun a b => 2 * a + b) 0 (List.replicate k 0) = 0 := by
  induction k with
  | zero => rfl
  | succ k ih => simpa [List.replicate_succ] using ih

theorem msbVal_replicate_zero_append (k : Nat) (l : List Nat) :
    msbVal (List.replicate k 0 ++ l) = msbVal l := by
  unfold msbVal
  rw [List.foldl_append, foldl_msb_replicate_zero]

theorem msbVal_padZeros (w : Nat) (l : List Nat) : msbVal (padZeros w l) = msbVal l :=
  msbVal_replicate_zero_append _ _

theorem length_padZeros (w : Nat) (l : List Nat) (h : l.length ≤ w) :
    (padZeros w l).length = w := by
  simp [padZeros]
  omega

theorem convertBits_reverse_padZeros (w : Nat) (l : List Nat) :
    convertBitsToInt32 (padZeros w l).reverse = msbVal l := by
  rw [convertBits_reverse, msbVal_padZeros]

theorem natBitsMSB_head (n : Nat) (h : 1 ≤ n) : ∃ t, natBitsMSB n = 1 :: t := by
  have hl := natBitsLSB_getLast? n h
  cases hrev : (natBitsLSB n).reverse with
  | nil =>
    exfalso
    exact natBitsLSB_ne_nil n h (by simpa using congrArg List.reverse hrev)
  | cons a t =>
    have h2 : (natBitsLSB n).getLast? = some a := by
      rw [← List.head?_reverse, hrev]
      rfl
    have ha : a = 1 := by
      rw [hl] at h2
      injection h2 with h3
      exact h3.symm
    refine ⟨t, ?_⟩
    unfold natBitsMSB
    rw [hrev, ha]

theorem msbVal_natBitsMSB (n : Nat) : msbVal (natBitsMSB n) = n := by
  unfold natBitsMSB
  rw [msbVal_reverse, convertBits_natBitsLSB]

theorem dropWhile_zero_replicate_append (k : Nat) (l : List Nat) :
    (List.replicate k 0 ++ l).dropWhile (fun b => b == 0) =
      l.dropWhile (fun b => b == 0) := by
  induction k with
  | zero => rfl
  | succ k ih => simpa [List.replicate_succ] using ih

theorem bitString_zero : bitString 0 = [0] := by decide

theorem jsToBits32_pos (n : Nat) (h1 : 1 ≤ n) (h2 : n < 2 ^ 32) :
    jsToBits32 n = List.replicate (32 - (natBitsLSB n).length) 0 ++ natBitsMSB n := by
  unfold jsToBits32
  rw [if_neg (by omega)]
  have hlen : (natBitsLSB n).length ≤ 32 := length_natBitsLSB_le 32 n h2
  rw [List.take_append_eq_append_take, List.take_of_length_le hlen, List.take_replicate]
  have hmin : min (32 - (natBitsLSB n).length) 32 = 32 - (natBitsLSB n).length := by omega
  rw [hmin, List.reverse_append, List.reverse_replicate]
  rfl

theorem bitString_pos (n : Nat) (h1 : 1 ≤ n) (h2 : n < 2 ^ 32) :
    bitString n = natBitsMSB n := by
  unfold bitString
  rw [jsToBits32_pos n h1 h2, dropWhile_zero_replicate_append]
  obtain ⟨t, ht⟩ := natBitsMSB_head n h1
  rw [ht, List.dropWhile_cons]
  simp

theorem msbVal_bitString (n : Nat) (h2 : n < 2 ^ 32) : msbVal (bitString n) = n := by
  match n with
  | 0 => rw [bitString_zero]; rfl
  | n + 1 => rw [bitString_pos (n + 1) (by omega) h2, msbVal_natBitsMSB]

theorem length_bitString (n : Nat) (h2 : n < 2 ^ 32) :
    (bitString n).length = max 1 (Nat.clog 2 (n + 1)) := by
  match n with
  | 0 => rw [bitString_zero]; simp
  | n + 1 =>
    rw [bitString_pos (n + 1) (by omega) h2]
    unfold natBitsMSB
    rw [List.length_reverse, length_natBitsLSB_clog (n + 1) (by omega)]
    have hpos : 0 < Nat.clog 2 (n + 1 + 1) := Nat.clog_pos (by omega) (by omega)
    omega

theorem bitString_pos_length (n : Nat) : 1 ≤ (bitString n).length := by
  unfold bitString
  split
  · simp
  · next h => exact List.length_pos.2 h

theorem bitString_le_one (n : Nat) : ∀ b ∈ bitString n, b ≤ 1 := by
  intro b hb
  unfold bitString at hb
  split at hb
  · simp at hb
    omega
  · have h1 : b ∈ jsToBits32 n := (List.dropWhile_sublist _).subset hb
    unfold jsToBits32 at h1
    rw [List.mem_reverse] at h1
    have h2 := List.mem_of_mem_take h1
    rcases List.mem_append.1 h2 with h3 | h3
    · split at h3
      · simp at h3
        omega
      · exact natBitsLSB_le_one n b h3
    · rw [List.eq_of_mem_replicate h3]
      omega

/-! ## Lemmas: bytes and chunks -/

theorem byteBits_msbVal (l : List Nat) (hlen : l.length = 8) (hb : ∀ b ∈ l, b ≤ 1) :
    byteBits (msbVal l) = l := by
  match l, hlen with
  | [a, b, c, d, e, f, g, h], _ =>
    have ha : a ≤ 1 := hb a (by simp)
    have hbb : b ≤ 1 := hb b (by simp)
    have hc : c ≤ 1 := hb c (by simp)
    have hd : d ≤ 1 := hb d (by simp)
    have he : e ≤ 1 := hb e (by simp)
    have hf : f ≤ 1 := hb f (by simp)
    have hg : g ≤ 1 := hb g (by simp)
    have hh : h ≤ 1 := hb h (by simp)
    show byteBits (List.foldl (fun a b => 2 * a + b) 0 [a, b, c, d, e, f, g, h]) = _
    have hv : List.foldl (fun a b => 2 * a + b) 0 [a, b, c, d, e, f, g, h] =
        128 * a + 64 * b + 32 * c + 16 * d + 8 * e + 4 * f + 2 * g + h := by
      simp [List.foldl_cons]
      ring
    rw [hv]
    unfold byteBits
    have hlt : 128 * a + 64 * b + 32 * c + 16 * d + 8 * e + 4 * f + 2 * g + h < 256 := by omega
    rw [Nat.mod_eq_of_lt hlt]
    have e1 : (128 * a + 64 * b + 32 * c + 16 * d + 8 * e + 4 * f + 2 * g + h) / 128 % 2 = a := by
      omega
    have e2 : (128 * a + 64 * b + 32 * c + 16 * d + 8 * e + 4 * f + 2 * g + h) / 64 % 2 = b := by
      omega
    have e3 : (128 * a + 64 * b + 32 * c + 16 * d + 8 * e + 4 * f + 2 * g + h) / 32 % 2 = c := by
      omega
    have e4 : (128 * a + 64 * b + 32 * c + 16 * d + 8 * e + 4 * f + 2 * g + h) / 16 % 2 = d := by
      omega
    have e5 : (128 * a + 64 * b + 32 * c + 16 * d + 8 * e + 4 * f + 2 * g + h) / 8 % 2 = e := by
      omega
    have e6 : (128 * a + 64 * b + 32 * c + 16 * d + 8 * e + 4 * f + 2 * g + h) / 4 % 2 = f := by
      omega
    have e7 : (128 * a + 64 * b + 32 * c + 16 * d + 8 * e + 4 * f + 2 * g + h) / 2 % 2 = g := by
      omega
    have e8 : (128 * a + 64 * b + 32 * c + 16 * d + 8 * e + 4 * f + 2 * g + h) % 2 = h := by
      omega
    rw [e1, e2, e3, e4, e5, e6, e7, e8]

theorem chunks8F_fuel : ∀ (f : Nat) (l : List Nat) (f' : Nat), l.length ≤ f → l.length ≤ f' →
    chunks8F f l = chunks8F f' l := by
  intro f
  induction f with
  | zero =>
    intro l f' h h'
    have hl : l = [] := List.eq_nil_of_length_eq_zero (by omega)
    subst hl
    cases f' <;> rfl
  | succ f ih =>
    intro l f' h h'
    cases l with
    | nil => cases f' <;> rfl
    | cons b bs =>
      cases f' with
      | zero => simp at h'
      | succ f2 =>
        show List.take 8 (b :: bs) :: chunks8F f (List.drop 8 (b :: bs)) =
          List.take 8 (b :: bs) :: chunks8F f2 (List.drop 8 (b :: bs))
        have hd : (List.drop 8 (b :: bs)).length = (b :: bs).length - 8 := List.length_drop 8 _
        have hlen : (b :: bs).length = bs.length + 1 := rfl
        exact congrArg _ (ih _ f2 (by omega) (by omega))

theorem chunks8_append8 (c rest : List Nat) (hc : c.length = 8) :
    chunks8 (c ++ rest) = c :: chunks8 rest := by
  unfold chunks8
  have hlen : (c ++ rest).length = rest.length + 8 := by simp [hc]; omega
  rw [hlen]
  cases hcc : c ++ rest with
  | nil =>
    have hl := congrArg List.length hcc
    simp [hc] at hl
  | cons b bs =>
    have ht : List.take 8 (b :: bs) = c := by
      rw [← hcc, ← hc]
      exact List.take_left c rest
    have hdr : List.drop 8 (b :: bs) = rest := by
      rw [← hcc, ← hc]
      exact List.drop_left c rest
    show List.take 8 (b :: bs) :: chunks8F (rest.length + 7) (List.drop 8 (b :: bs)) = _
    rw [ht, hdr]
    exact congrArg _ (chunks8F_fuel _ rest _ (by omega) (le_refl _))

theorem recordBits_pack_fuel : ∀ (n : Nat) (P : List Nat), P.length ≤ n →
    (∀ b ∈ P, b ≤ 1) → 8 ∣ P.length →
    recordBits (((chunks8 P).map msbVal).reverse) = P.reverse := by
  intro n
  induction n with
  | zero =>
    intro P hn _ _
    have hP : P = [] := List.eq_nil_of_length_eq_zero (by omega)
    subst hP
    rfl
  | succ n ih =>
    intro P hn hb h8
    cases hP : P with
    | nil => rfl
    | cons b bs =>
      subst hP
      have hlen8 : 8 ≤ (b :: bs).length := by
        rcases h8 with ⟨k, hk⟩
        match k, hk with
        | 0, hk => simp at hk
        | k + 1, hk => omega
      have hc : (List.take 8 (b :: bs)).length = 8 := by
        rw [List.length_take]
        omega
      have hsplit : b :: bs = List.take 8 (b :: bs) ++ List.drop 8 (b :: bs) :=
        (List.take_append_drop 8 _).symm
      have hlsum : (b :: bs).length = 8 + (List.drop 8 (b :: bs)).length := by
        conv_lhs => rw [hsplit]
        rw [List.length_append, hc]
      rw [hsplit, chunks8_append8 _ _ hc]
      set c := List.take 8 (b :: bs) with hcdef
      set rest := List.drop 8 (b :: bs) with hrdef
      have hrest : recordBits (((chunks8 rest).map msbVal).reverse) = rest.reverse := by
        apply ih rest (by omega) (fun x hx => hb x (hsplit ▸ List.mem_append_right c hx))
        rcases h8 with ⟨k, hk⟩
        exact ⟨k - 1, by omega⟩
      unfold recordBits at hrest ⊢
      rw [List.reverse_reverse] at hrest
      rw [List.map_cons, List.reverse_reverse, List.map_cons,
        byteBits_msbVal c hc (fun x hx => hb x (hsplit ▸ List.mem_append_left rest hx)),
        List.flatten_cons, List.reverse_append, hrest, List.reverse_append]

theorem recordBits_pack (P : List Nat) (hb : ∀ b ∈ P, b ≤ 1) (h8 : 8 ∣ P.length) :
    recordBits (((chunks8 P).map msbVal).reverse) = P.reverse :=
  recordBits_pack_fuel P.length P (le_refl _) hb h8

theorem flatten_extract : ∀ (L : List (List Nat)) (k : Nat) (Z : List Nat), k < L.length →
    ((L.flatten ++ Z).drop (((L.map List.length).take k).sum)).take
        ((L[k]?.getD []).length) = L[k]?.getD [] := by
  intro L
  induction L with
  | nil => intro k Z hk; simp at hk
  | cons x xs ih =>
    intro k Z hk
    cases k with
    | zero =>
      simp only [List.take_zero, List.sum_nil, List.drop_zero, List.getElem?_cons_zero,
        Option.getD_some]
      rw [List.flatten_cons, List.append_assoc]
      exact List.take_left x _
    | succ k =>
      simp only [List.map_cons, List.take_succ_cons, List.sum_cons, List.getElem?_cons_succ]
      rw [List.flatten_cons, List.append_assoc, List.drop_append]
      exact ih k Z (by simpa using hk)

/-! ## Lemmas: UTF-8 round trip -/

theorem char_valid_toNat (c : Char) :
    c.toNat < 1114112 ∧ ¬(55296 ≤ c.toNat ∧ c.toNat < 57344) := by
  have h : Nat.isValidChar c.toNat := c.valid
  rcases h with h | ⟨h1, h2⟩ <;> constructor <;> omega

theorem utf8DecodeF_one (f b0 : Nat) (rest : List Nat) (h : b0 < 128) :
    utf8DecodeF (f + 1) (b0 :: rest) = Char.ofNat b0 :: utf8DecodeF f rest := by
  show (if b0 < 128 then Char.ofNat b0 :: utf8DecodeF f rest else _) = _
  rw [if_pos h]

theorem utf8DecodeF_two (f b0 b1 : Nat) (rest : List Nat)
    (h0 : 194 ≤ b0 ∧ b0 < 224) (h1 : 128 ≤ b1 ∧ b1 < 192) :
    utf8DecodeF (f + 1) (b0 :: b1 :: rest) =
      Char.ofNat ((b0 - 192) * 64 + (b1 - 128)) :: utf8DecodeF f rest := by
  show (if b0 < 128 then _ else if b0 < 194 then _ else if b0 < 224 then
    (if 128 ≤ b1 ∧ b1 < 192 then Char.ofNat ((b0 - 192) * 64 + (b1 - 128)) :: utf8DecodeF f rest
      else replChar :: utf8DecodeF f (b1 :: rest)) else _) = _
  rw [if_neg (by omega), if_neg (by omega), if_pos (by omega), if_pos h1]

theorem utf8DecodeF_three (f b0 b1 b2 : Nat) (rest : List Nat)
    (h0 : 224 ≤ b0 ∧ b0 < 240) (h1 : 128 ≤ b1 ∧ b1 < 192) (h2 : 128 ≤ b2 ∧ b2 < 192)
    (hlo : 2048 ≤ (b0 - 224) * 4096 + (b1 - 128) * 64 + (b2 - 128))
    (hsur : ¬(55296 ≤ (b0 - 224) * 4096 + (b1 - 128) * 64 + (b2 - 128) ∧
      (b0 - 224) * 4096 + (b1 - 128) * 64 + (b2 - 128) < 57344)) :
    utf8DecodeF (f + 1) (b0 :: b1 :: b2 :: rest) =
      Char.ofNat ((b0 - 224) * 4096 + (b1 - 128) * 64 + (b2 - 128)) :: utf8DecodeF f rest := by
  show (if b0 < 128 then _ else if b0 < 194 then _ else if b0 < 224 then
      (if 128 ≤ b1 ∧ b1 < 192 then _ else _) else if b0 < 240 then
      (if (128 ≤ b1 ∧ b1 < 192) ∧ (128 ≤ b2 ∧ b2 < 192) ∧
          (2048 ≤ (b0 - 224) * 4096 + (b1 - 128) * 64 + (b2 - 128)) ∧
          ¬(55296 ≤ (b0 - 224) * 4096 + (b1 - 128) * 64 + (b2 - 128) ∧
            (b0 - 224) * 4096 + (b1 - 128) * 64 + (b2 - 128) < 57344) then
        Char.ofNat ((b0 - 224) * 4096 + (b1 - 128) * 64 + (b2 - 128)) :: utf8DecodeF f rest
      else replChar :: utf8DecodeF f (b1 :: b2 :: rest)) else _) = _
  rw [if_neg (by omega), if_neg (by omega), if_neg (by omega), if_pos (by omega),
    if_pos ⟨h1, h2, hlo, hsur⟩]

theorem utf8DecodeF_four (f b0 b1 b2 b3 : Nat) (rest : List Nat)
    (h0 : 240 ≤ b0 ∧ b0 < 245) (h1 : 128 ≤ b1 ∧ b1 < 192) (h2 : 128 ≤ b2 ∧ b2 < 192)
    (h3 : 128 ≤ b3 ∧ b3 < 192)
    (hlo : 65536 ≤ (b0 - 240) * 262144 + (b1 - 128) * 4096 + (b2 - 128) * 64 + (b3 - 128))
    (hhi : (b0 - 240) * 262144 + (b1 - 128) * 4096 + (b2 - 128) * 64 + (b3 - 128) < 1114112) :
    utf8DecodeF (f + 1) (b0 :: b1 :: b2 :: b3 :: rest) =
      Char.ofNat ((b0 - 240) * 262144 + (b1 - 128) * 4096 + (b2 - 128) * 64 + (b3 - 128)) ::
        utf8DecodeF f rest := by
  show (if b0 < 128 then _ else if b0 < 194 then _ else if b0 < 224 then
      (if 128 ≤ b1 ∧ b1 < 192 then _ else _) else if b0 < 240 then
      (if (128 ≤ b1 ∧ b1 < 192) ∧ (128 ≤ b2 ∧ b2 < 192) ∧ _ ∧ ¬_ then _ else _)
      else if b0 < 245 then
      (if (128 ≤ b1 ∧ b1 < 192) ∧ (128 ≤ b2 ∧ b2 < 192) ∧ (128 ≤ b3 ∧ b3 < 192) ∧
          (65536 ≤ (b0 - 240) * 262144 + (b1 - 128) * 4096 + (b2 - 128) * 64 + (b3 - 128)) ∧
          ((b0 - 240) * 262144 + (b1 - 128) * 4096 + (b2 - 128) * 64 + (b3 - 128) < 1114112) then
        Char.ofNat ((b0 - 240) * 262144 + (b1 - 128) * 4096 + (b2 - 128) * 64 + (b3 - 128)) ::
          utf8DecodeF f rest
      else replChar :: utf8DecodeF f (b1 :: b2 :: b3 :: rest)) else _) = _
  rw [if_neg (by omega), if_neg (by omega), if_neg (by omega), if_neg (by omega),
    if_pos (by omega), if_pos ⟨h1, h2, h3, hlo, hhi⟩]

theorem utf8DecodeF_encodeChar (f : Nat) (c : Char) (rest : List Nat) :
    utf8DecodeF (f + 1) (utf8EncodeChar c ++ rest) = c :: utf8DecodeF f rest := by
  obtain ⟨hlt, hsur⟩ := char_valid_toNat c
  unfold utf8EncodeChar
  by_cases hc1 : c.toNat < 128
  · rw [if_pos hc1]
    show utf8DecodeF (f + 1) (c.toNat :: rest) = _
    rw [utf8DecodeF_one f _ rest hc1, Char.ofNat_toNat]
  · by_cases hc2 : c.toNat < 2048
    · rw [if_neg hc1, if_pos hc2]
      show utf8DecodeF (f + 1) ((192 + c.toNat / 64) :: (128 + c.toNat % 64) :: rest) = _
      rw [utf8DecodeF_two f _ _ rest (by omega) (by omega)]
      have hv : (192 + c.toNat / 64 - 192) * 64 + (128 + c.toNat % 64 - 128) = c.toNat := by
        omega
      rw [hv, Char.ofNat_toNat]
    · by_cases hc3 : c.toNat < 65536
      · rw [if_neg hc1, if_neg hc2, if_pos hc3]
        show utf8DecodeF (f + 1)
          ((224 + c.toNat / 4096) :: (128 + c.toNat / 64 % 64) :: (128 + c.toNat % 64) :: rest) = _
        have hv : (224 + c.toNat / 4096 - 224) * 4096 + (128 + c.toNat / 64 % 64 - 128) * 64 +
            (128 + c.toNat % 64 - 128) = c.toNat := by omega
        rw [utf8DecodeF_three f _ _ _ rest (by omega) (by omega) (by omega)
          (by omega) (by rw [hv]; exact hsur)]
        rw [hv, Char.ofNat_toNat]
      · rw [if_neg hc1, if_neg hc2, if_neg hc3]
        show utf8DecodeF (f + 1) ((240 + c.toNat / 262144) :: (128 + c.toNat / 4096 % 64) ::
          (128 + c.toNat / 64 % 64) :: (128 + c.toNat % 64) :: rest) = _
        have hv : (240 + c.toNat / 262144 - 240) * 262144 + (128 + c.toNat / 4096 % 64 - 128) *
            4096 + (128 + c.toNat / 64 % 64 - 128) * 64 + (128 + c.toNat % 64 - 128) =
            c.toNat := by omega
        rw [utf8DecodeF_four f _ _ _ _ rest (by omega) (by omega) (by omega) (by omega)
          (by omega) (by omega)]
        rw [hv, Char.ofNat_toNat]

theorem utf8DecodeF_nil (f : Nat) : utf8DecodeF f [] = [] := by
  cases f <;> rfl

theorem utf8DecodeF_encodeList (cs : List Char) : ∀ (f : Nat) (rest : List Nat),
    utf8DecodeF (f + cs.length) ((cs.map utf8EncodeChar).flatten ++ rest) =
      cs ++ utf8DecodeF f rest := by
  induction cs with
  | nil => intro f rest; simp
  | cons c cs ih =>
    intro f rest
    rw [List.map_cons, List.flatten_cons, List.append_assoc]
    have hstep : f + (c :: cs).length = (f + cs.length) + 1 := by simp; omega
    rw [hstep, utf8DecodeF_encodeChar, ih f rest]
    rfl

theorem utf8EncodeChar_length_pos (c : Char) : 1 ≤ (utf8EncodeChar c).length := by
  simp only [utf8EncodeChar]
  split_ifs <;> simp

theorem utf8Encode_length_ge (s : String) : s.data.length ≤ (utf8Encode s).length := by
  unfold utf8Encode
  induction s.data with
  | nil => simp
  | cons c cs ih =>
    rw [List.map_cons, List.flatten_cons, List.length_append, List.length_cons]
    have := utf8EncodeChar_length_pos c
    omega

theorem utf8Decode_encode (s : String) : utf8Decode (utf8Encode s) = s := by
  have hge := utf8Encode_length_ge s
  apply String.ext
  show utf8DecodeF (utf8Encode s).length (utf8Encode s) = s.data
  have hsplit : (utf8Encode s).length = ((utf8Encode s).length - s.data.length) +
      s.data.length := by omega
  rw [hsplit]
  have h := utf8DecodeF_encodeList s.data ((utf8Encode s).length - s.data.length) []
  rw [List.append_nil, utf8DecodeF_nil, List.append_nil] at h
  exact h

theorem utf8EncodeChar_ne_zero (c : Char) (hc : c.toNat ≠ 0) :
    ∀ b ∈ utf8EncodeChar c, b ≠ 0 := by
  intro b hb
  simp only [utf8EncodeChar] at hb
  split_ifs at hb <;> simp at hb <;> omega

theorem utf8Encode_ne_zero (s : String) (hs : noNul s = true) :
    ∀ b ∈ utf8Encode s, b ≠ 0 := by
  intro b hb
  unfold utf8Encode at hb
  rcases List.mem_flatten.1 hb with ⟨l, hl, hbl⟩
  rcases List.mem_map.1 hl with ⟨c, hcs, hcl⟩
  have hc : c.toNat ≠ 0 := by
    have := (List.all_eq_true.1 hs) c hcs
    simpa using this
  exact utf8EncodeChar_ne_zero c hc b (hcl ▸ hbl)

theorem takeUntilZero_append (l rest : List Nat) (hz : ∀ b ∈ l, b ≠ 0) :
    takeUntilZero (l ++ 0 :: rest) = some l := by
  unfold takeUntilZero
  have hany : ((l ++ 0 :: rest).any fun b => b == 0) = true := by
    rw [List.any_append]
    simp
  rw [if_pos hany]
  have htw : List.takeWhile (fun b => b ≠ 0) l = l :=
    List.takeWhile_eq_self_iff.2 (by intro x hx; simpa using hz x hx)
  rw [List.takeWhile_append, htw]
  simp

/-! ## Lemmas: 32-bit little-endian integers -/

theorem readIntLE_int32Bytes (v : Int) (h : -2147483648 ≤ v ∧ v ≤ 2147483647) :
    readIntLEList (int32Bytes v) = v := by
  unfold int32Bytes readIntLEList
  have hmod : 0 ≤ v % 4294967296 ∧ v % 4294967296 < 4294967296 := by
    constructor
    · exact Int.emod_nonneg v (by norm_num)
    · exact Int.emod_lt_of_pos v (by norm_num)
  set u : Nat := (v % 4294967296).toNat with hu
  have hult : u < 4294967296 := by omega
  have hfold : List.foldr (fun b acc => b % 256 + 256 * acc) 0
      [u % 256, u / 256 % 256, u / 65536 % 256, u / 16777216 % 256] =
      u % 256 + 256 * (u / 256 % 256 + 256 * (u / 65536 % 256 +
        256 * (u / 16777216 % 256 + 256 * 0))) := by
    simp only [List.foldr_cons, List.foldr_nil]
    omega
  rw [hfold]
  have hval : u % 256 + 256 * (u / 256 % 256 + 256 * (u / 65536 % 256 +
      256 * (u / 16777216 % 256 + 256 * 0))) = u := by omega
  rw [hval]
  have hlen : ([u % 256, u / 256 % 256, u / 65536 % 256, u / 16777216 % 256] :
      List Nat).length = 4 := rfl
  rw [hlen]
  have huv : (u : Int) = v % 4294967296 := by omega
  norm_num
  by_cases hv : 0 ≤ v
  · have hvmod : v % 4294967296 = v := Int.emod_eq_of_lt hv (by omega)
    rw [if_pos (by omega)]
    omega
  · have hvmod : v % 4294967296 = v + 4294967296 := by omega
    rw [if_neg (by omega)]
    omega

/-! ## Lemmas: symbol parsing -/

theorem parseOneSymbol_consumed (rt : JsRt) (bytes : List Nat) (sym : QvdSymbol) (c : Nat)
    (h : parseOneSymbol rt bytes = .ok (sym, c)) : 1 ≤ c := by
  cases bytes with
  | nil => simp [parseOneSymbol] at h
  | cons t rest =>
    simp only [parseOneSymbol] at h
    split_ifs at h <;> (try split at h) <;>
      simp only [Except.ok.injEq, Prod.mk.injEq, reduceCtorEq] at h <;>
      omega

theorem parseSymbolsF_fuel (rt : JsRt) : ∀ (b f f' : Nat) (bytes : List Nat),
    b ≤ f → b ≤ f' → parseSymbolsF rt f bytes b = parseSymbolsF rt f' bytes b := by
  intro b
  induction b using Nat.strong_induction_on with
  | _ b ih =>
    intro f f' bytes hf hf'
    match b, f, f' with
    | 0, f, f' => cases f <;> cases f' <;> rfl
    | b + 1, f + 1, f' + 1 =>
      cases hp : parseOneSymbol rt bytes with
      | error e =>
        simp only [parseSymbolsF, hp]
        rfl
      | ok pr =>
        obtain ⟨sym, c⟩ := pr
        have hc := parseOneSymbol_consumed rt bytes sym c hp
        simp only [parseSymbolsF, hp]
        show (parseSymbolsF rt f (bytes.drop c) (b + 1 - c) >>= fun rest =>
            Except.ok (sym :: rest)) =
          (parseSymbolsF rt f' (bytes.drop c) (b + 1 - c) >>= fun rest =>
            Except.ok (sym :: rest))
        rw [ih (b + 1 - c) (by omega) f f' (bytes.drop c) (by omega) (by omega)]

theorem toByteRepresentation_dualInt (rt : JsRt) (i : Int) (s : String) (hi : i ≠ 0)
    (hs : s ≠ "") (hr : -2147483648 ≤ i ∧ i ≤ 2147483647) :
    QvdSymbol.toByteRepresentation rt ⟨some i, none, some s⟩ =
      .ok ([5] ++ int32Bytes i ++ utf8Encode s ++ [0]) := by
  unfold QvdSymbol.toByteRepresentation
  rw [if_pos ⟨by simp [truthyInt, hi], by simp [truthyStr, hs]⟩]
  show writeInt32LE i >>= _ = _
  unfold writeInt32LE
  rw [if_pos hr]
  rfl

theorem toByteRepresentation_dualIntZero (rt : JsRt) (s : String) (hs : s ≠ "") :
    QvdSymbol.toByteRepresentation rt ⟨some 0, none, some s⟩ =
      .ok ([4] ++ utf8Encode s ++ [0]) := by
  unfold QvdSymbol.toByteRepresentation
  rw [if_neg (by simp [truthyInt]), if_neg (by simp [truthyNum]),
    if_neg (by simp [truthyInt]), if_neg (by simp [truthyNum]),
    if_pos (by simp [truthyStr, hs])]
  rfl

theorem toByteRepresentation_dualDouble (rt : JsRt) (d : ℚ) (s : String) (hd : d ≠ 0)
    (hs : s ≠ "") :
    QvdSymbol.toByteRepresentation rt ⟨none, some d, some s⟩ =
      .ok ([6] ++ rt.dblToBytes d ++ utf8Encode s ++ [0]) := by
  unfold QvdSymbol.toByteRepresentation
  rw [if_neg (by simp [truthyInt]),
    if_pos ⟨by simp [truthyNum, hd], by simp [truthyStr, hs]⟩]
  rfl

theorem toByteRepresentation_string (rt : JsRt) (s : String) (hs : s ≠ "") :
    QvdSymbol.toByteRepresentation rt ⟨none, none, some s⟩ =
      .ok ([4] ++ utf8Encode s ++ [0]) := by
  unfold QvdSymbol.toByteRepresentation
  rw [if_neg (by simp [truthyInt]), if_neg (by simp [truthyNum]),
    if_neg (by simp [truthyInt]), if_neg (by simp [truthyNum]),
    if_pos (by simp [truthyStr, hs])]
  rfl

theorem parseOneSymbol_tag4 (rt : JsRt) (s : String) (hnul : noNul s = true)
    (rest : List Nat) :
    parseOneSymbol rt (([4] ++ utf8Encode s ++ [0]) ++ rest) =
      .ok (⟨none, none, some s⟩, (utf8Encode s).length + 2) := by
  have hassoc : ([4] ++ utf8Encode s ++ [0]) ++ rest = 4 :: (utf8Encode s ++ 0 :: rest) := by
    simp
  rw [hassoc]
  have htz := takeUntilZero_append (utf8Encode s) rest (utf8Encode_ne_zero s hnul)
  simp [parseOneSymbol, htz, utf8Decode_encode]

theorem parseOneSymbol_tag5 (rt : JsRt) (i : Int) (s : String)
    (hr : -2147483648 ≤ i ∧ i ≤ 2147483647) (hnul : noNul s = true) (rest : List Nat) :
    parseOneSymbol rt (([5] ++ int32Bytes i ++ utf8Encode s ++ [0]) ++ rest) =
      .ok (⟨some i, none, some s⟩, (utf8Encode s).length + 6) := by
  have hassoc : ([5] ++ int32Bytes i ++ utf8Encode s ++ [0]) ++ rest =
      5 :: (int32Bytes i ++ (utf8Encode s ++ 0 :: rest)) := by
    simp
  rw [hassoc]
  have hi4 : (int32Bytes i).length = 4 := rfl
  have htake : (int32Bytes i ++ (utf8Encode s ++ 0 :: rest)).take 4 = int32Bytes i := by
    rw [← hi4]
    exact List.take_left _ _
  have hdrop : (int32Bytes i ++ (utf8Encode s ++ 0 :: rest)).drop 4 =
      utf8Encode s ++ 0 :: rest := by
    rw [← hi4]
    exact List.drop_left _ _
  have htz := takeUntilZero_append (utf8Encode s) rest (utf8Encode_ne_zero s hnul)
  simp [parseOneSymbol, htake, hdrop, hi4, htz, utf8Decode_encode,
    readIntLE_int32Bytes i hr]

theorem parseOneSymbol_tag6 (rt : JsRt) (d : ℚ) (s : String)
    (hlen : (rt.dblToBytes d).length = 8) (hnul : noNul s = true) (rest : List Nat) :
    parseOneSymbol rt (([6] ++ rt.dblToBytes d ++ utf8Encode s ++ [0]) ++ rest) =
      .ok (⟨none, some (rt.dblOfBytes (rt.dblToBytes d)), some s⟩,
        (utf8Encode s).length + 10) := by
  have hassoc : ([6] ++ rt.dblToBytes d ++ utf8Encode s ++ [0]) ++ rest =
      6 :: (rt.dblToBytes d ++ (utf8Encode s ++ 0 :: rest)) := by
    simp
  rw [hassoc]
  have htake : (rt.dblToBytes d ++ (utf8Encode s ++ 0 :: rest)).take 8 = rt.dblToBytes d := by
    rw [← hlen]
    exact List.take_left _ _
  have hdrop : (rt.dblToBytes d ++ (utf8Encode s ++ 0 :: rest)).drop 8 =
      utf8Encode s ++ 0 :: rest := by
    rw [← hlen]
    exact List.drop_left _ _
  have htz := takeUntilZero_append (utf8Encode s) rest (utf8Encode_ne_zero s hnul)
  simp [parseOneSymbol, htake, hdrop, hlen, htz, utf8Decode_encode]

theorem parseOne_emit (rt : JsRt) (v : Cell) (hv : goodCell rt v) :
    ∃ bs sym2, QvdSymbol.toByteRepresentation rt (convertRawToSymbol rt v) = .ok bs ∧
      1 ≤ bs.length ∧
      (∀ rest, parseOneSymbol rt (bs ++ rest) = .ok (sym2, bs.length)) ∧
      symbolCellValue rt (some sym2) = v := by
  cases v with
  | null => exact absurd hv (by simp [goodCell])
  | str s =>
    obtain ⟨hnum, hnul, hne⟩ := hv
    have hcv : convertRawToSymbol rt (.str s) = ⟨none, none, some s⟩ := rfl
    refine ⟨[4] ++ utf8Encode s ++ [0], ⟨none, none, some s⟩, ?_, by simp, ?_, ?_⟩
    · rw [hcv, toByteRepresentation_string rt s hne]
    · intro rest
      rw [parseOneSymbol_tag4 rt s hnul rest]
      simp <;> omega
    · simp [symbolCellValue, QvdSymbol.toPrimaryValue, hnum]
  | num q =>
    obtain ⟨hrange, hround, hne, hnul, hdbl⟩ := hv
    by_cases hden : q.den = 1
    · have hcv : convertRawToSymbol rt (.num q) =
          ⟨some q.num, none, some (rt.numToStr q)⟩ := by
        simp [convertRawToSymbol, hden]
      by_cases hz : q.num = 0
      · refine ⟨[4] ++ utf8Encode (rt.numToStr q) ++ [0], ⟨none, none, some (rt.numToStr q)⟩,
          ?_, by simp, ?_, ?_⟩
        · rw [hcv, hz, toByteRepresentation_dualIntZero rt _ hne]
        · intro rest
          rw [parseOneSymbol_tag4 rt _ hnul rest]
          simp <;> omega
        · have hq : q = 0 := by
            have := Rat.num_div_den q
            rw [hz] at this
            simpa using this.symm
          rw [hq] at hround
          simp [symbolCellValue, QvdSymbol.toPrimaryValue, hround, hq]
      · refine ⟨[5] ++ int32Bytes q.num ++ utf8Encode (rt.numToStr q) ++ [0],
          ⟨some q.num, none, some (rt.numToStr q)⟩, ?_, by simp, ?_, ?_⟩
        · rw [hcv, toByteRepresentation_dualInt rt q.num _ hz hne (hrange hden)]
        · intro rest
          rw [parseOneSymbol_tag5 rt q.num _ (hrange hden) hnul rest]
          have h4 : (int32Bytes q.num).length = 4 := rfl
          simp [h4] <;> omega
        · simp [symbolCellValue, QvdSymbol.toPrimaryValue, hround]
    · have hcv : convertRawToSymbol rt (.num q) =
          ⟨none, some q, some (rt.numToStr q)⟩ := by
        simp [convertRawToSymbol, hden]
      have hq0 : q ≠ 0 := by
        intro hq
        exact hden (by rw [hq]; rfl)
      refine ⟨[6] ++ rt.dblToBytes q ++ utf8Encode (rt.numToStr q) ++ [0],
        ⟨none, some (rt.dblOfBytes (rt.dblToBytes q)), some (rt.numToStr q)⟩,
        ?_, by simp, ?_, ?_⟩
      · rw [hcv, toByteRepresentation_dualDouble rt q _ hq0 hne]
      · intro rest
        rw [parseOneSymbol_tag6 rt q _ (hdbl hden) hnul rest]
        simp [hdbl hden] <;> omega
      · simp [symbolCellValue, QvdSymbol.toPrimaryValue, hround]

theorem mapM_ok_forall {α β : Type} (f : α → Except String β) :
    ∀ (l : List α) (r : List β), l.mapM f = .ok r → ∀ x ∈ l, ∃ y, f x = .ok y := by
  intro l
  induction l with
  | nil => intro r _ x hx; cases hx
  | cons a l ih =>
    intro r h x hx
    rw [List.mapM_cons] at h
    cases ha : f a with
    | error e => rw [ha] at h; cases h
    | ok y =>
      rw [ha] at h
      cases hl : l.mapM f with
      | error e =>
        rw [hl] at h
        cases h
      | ok ys =>
        rw [hl] at h
        rcases List.mem_cons.1 hx with hx | hx
        · exact ⟨y, hx ▸ ha⟩
        · exact ih ys hl x hx

theorem parseSymbols_emissions (rt : JsRt) : ∀ (vs : List Cell) (bufs : List (List Nat))
    (suffix : List Nat), (∀ v ∈ vs, goodCell rt v) →
    (vs.map (convertRawToSymbol rt)).mapM (QvdSymbol.toByteRepresentation rt) = .ok bufs →
    ∃ syms, parseSymbols rt (bufs.flatten ++ suffix) bufs.flatten.length = .ok syms ∧
      syms.map (fun s2 => symbolCellValue rt (some s2)) = vs ∧ syms.length = vs.length := by
  intro vs
  induction vs with
  | nil =>
    intro bufs suffix _ h
    rw [List.map_nil, List.mapM_nil] at h
    have hb : bufs = [] := by
      cases h
      rfl
    subst hb
    exact ⟨[], rfl, rfl, rfl⟩
  | cons v vs ih =>
    intro bufs suffix hgood h
    rw [List.map_cons, List.mapM_cons] at h
    obtain ⟨bs, sym2, hemit, hbs1, hparse, hval⟩ := parseOne_emit rt v (hgood v (by simp))
    rw [hemit] at h
    cases hrest : (vs.map (convertRawToSymbol rt)).mapM (QvdSymbol.toByteRepresentation rt) with
    | error e =>
      rw [hrest] at h
      cases h
    | ok brest =>
      rw [hrest] at h
      have hb : bufs = bs :: brest := by
        cases h
        rfl
      subst hb
      obtain ⟨syms', hp', hv', hl'⟩ :=
        ih brest suffix (fun x hx => hgood x (List.mem_cons_of_mem v hx)) hrest
      refine ⟨sym2 :: syms', ?_, by rw [List.map_cons, hval, hv'], by simp [hl']⟩
      rw [List.flatten_cons, List.append_assoc]
      unfold parseSymbols
      have hlen : (bs ++ brest.flatten).length = bs.length + brest.flatten.length := by
        simp
      rw [hlen]
      obtain ⟨b0, hb0⟩ : ∃ b0, bs.length + brest.flatten.length = b0 + 1 :=
        ⟨bs.length + brest.flatten.length - 1, by omega⟩
      rw [hb0]
      show parseSymbolsF rt (b0 + 1) (bs ++ (brest.flatten ++ suffix)) (b0 + 1) = _
      have hstep : parseSymbolsF rt (b0 + 1) (bs ++ (brest.flatten ++ suffix)) (b0 + 1) =
          (parseSymbolsF rt b0 ((bs ++ (brest.flatten ++ suffix)).drop bs.length)
            (b0 + 1 - bs.length) >>= fun rest2 => Except.ok (sym2 :: rest2)) := by
        have hone := hparse (brest.flatten ++ suffix)
        simp only [parseSymbolsF, hone]
        rfl
      rw [hstep, List.drop_left]
      have hbud : b0 + 1 - bs.length = brest.flatten.length := by omega
      rw [hbud]
      rw [parseSymbolsF_fuel rt brest.flatten.length b0 brest.flatten.length _ (by omega)
        (le_refl _)]
      show (parseSymbols rt (brest.flatten ++ suffix) brest.flatten.length >>=
        fun rest2 => Except.ok (sym2 :: rest2)) = _
      rw [hp']
      rfl

theorem buildSymbolColumns_spec (rt : JsRt) (df : QvdDataFrame) :
    ∀ (cols : List String) (off : Nat) (symTs : List (List QvdSymbol))
      (metas : List (Nat × Nat)) (buf : List Nat),
    buildSymbolColumns rt df cols off = .ok (symTs, metas, buf) →
    symTs.length = cols.length ∧ metas.length = cols.length ∧
    (∀ m, metas.getLast? = some m → m.1 + m.2 = off + buf.length) ∧
    (metas.getLast? = none → buf = []) ∧
    (∀ k, k < cols.length →
      ∃ colk moff mlen uniq,
        cols.get? k = some colk ∧
        metas.get? k = some (moff, mlen) ∧
        uniq = jsSetDedup (columnValues df (df.columns.findIdx (fun c => c == colk))) ∧
        symTs.get? k = some (uniq.map (convertRawToSymbol rt)) ∧
        off ≤ moff ∧
        (∀ v ∈ uniq, ∃ bs, QvdSymbol.toByteRepresentation rt (convertRawToSymbol rt v) =
          .ok bs) ∧
        ((∀ v ∈ uniq, goodCell rt v) →
          ∃ syms2, parseSymbols rt (buf.drop (moff - off)) mlen = .ok syms2 ∧
            syms2.map (fun s2 => symbolCellValue rt (some s2)) = uniq ∧
            syms2.length = uniq.length)) := by
  intro cols
  induction cols with
  | nil =>
    intro off symTs metas buf h
    have h' : symTs = [] ∧ metas = [] ∧ buf = [] := by
      cases h
      exact ⟨rfl, rfl, rfl⟩
    obtain ⟨h1, h2, h3⟩ := h'
    subst h1
    subst h2
    subst h3
    exact ⟨rfl, rfl, fun m hm => by simp at hm, fun _ => rfl,
      fun k hk => absurd hk (by simp)⟩
  | cons column restCols ih =>
    intro off symTs metas buf h
    simp only [buildSymbolColumns] at h
    split at h
    · cases h
    · next bufs hbufs =>
      split at h
      · cases h
      · next symTs2 metas2 bufRest hrec =>
        have hout : symTs = (jsSetDedup (columnValues df (df.columns.findIdx
            (fun c => c == column)))).map (convertRawToSymbol rt) :: symTs2 ∧
            metas = (off, bufs.flatten.length) :: metas2 ∧ buf = bufs.flatten ++ bufRest := by
          cases h
          exact ⟨rfl, rfl, rfl⟩
        obtain ⟨ho1, ho2, ho3⟩ := hout
        subst ho1
        subst ho2
        subst ho3
        obtain ⟨ih1, ih2, ih3a, ih3b, ih4⟩ :=
          ih (off + bufs.flatten.length) symTs2 metas2 bufRest hrec
        refine ⟨by simp [ih1], by simp [ih2], ?_, ?_, ?_⟩
        · intro m hm
          cases hm2 : metas2 with
          | nil =>
            rw [hm2] at ih3b
            have hbr : bufRest = [] := ih3b rfl
            rw [hm2] at hm
            simp at hm
            subst hbr
            simp [← hm]
          | cons m2 ms2 =>
            rw [hm2] at hm
            rw [List.getLast?_cons_cons] at hm
            rw [hm2] at ih3a
            have hsum := ih3a m hm
            rw [List.length_append]
            omega
        · intro hm
          cases hm2 : metas2 with
          | nil => rw [hm2] at hm; simp at hm
          | cons m2 ms2 =>
            rw [hm2] at hm
            rw [List.getLast?_cons_cons] at hm
            have := List.getLast?_eq_none_iff.1 hm
            simp at this
        · intro k hk
          cases k with
          | zero =>
            refine ⟨column, off, bufs.flatten.length,
              jsSetDedup (columnValues df (df.columns.findIdx (fun c => c == column))),
              rfl, rfl, rfl, rfl, le_refl _, ?_, ?_⟩
            · intro v hv
              exact mapM_ok_forall _ _ bufs hbufs _ (List.mem_map_of_mem _ hv)
            · intro hgood
              obtain ⟨syms2, hp, hv, hl⟩ :=
                parseSymbols_emissions rt _ bufs bufRest hgood hbufs
              refine ⟨syms2, ?_, hv, by rw [hl]⟩
              have hdrop0 : (bufs.flatten ++ bufRest).drop (off - off) = bufs.flatten ++ bufRest := by
                simp
              rw [hdrop0]
              exact hp
          | succ k =>
            obtain ⟨colk, moff, mlen, uniq, hc1, hc2, hc3, hc4, hc5, hc6, hc7⟩ :=
              ih4 k (by simpa using hk)
            refine ⟨colk, moff, mlen, uniq, hc1, hc2, hc3, hc4, by omega, hc6, ?_⟩
            intro hgood
            obtain ⟨syms2, hp, hv, hl⟩ := hc7 hgood
            refine ⟨syms2, ?_, hv, hl⟩
            have hdropEq : (bufs.flatten ++ bufRest).drop (moff - off) =
                bufRest.drop (moff - (off + bufs.flatten.length)) := by
              have hsplit : moff - off = bufs.flatten.length +
                  (moff - (off + bufs.flatten.length)) := by omega
              rw [hsplit]
              exact List.drop_append _
            rw [hdropEq]
            exact hp

/-! ## Lemmas: deduplication and symbol lookup -/

theorem jsSetDedup_go_mem {α : Type} [DecidableEq α] (x : α) :
    ∀ (l acc : List α), x ∈ l.foldl (fun acc v => if v ∈ acc then acc else acc ++ [v]) acc ↔
      x ∈ acc ∨ x ∈ l := by
  intro l
  induction l with
  | nil => intro acc; simp
  | cons v t ih =>
    intro acc
    rw [List.foldl_cons, ih]
    by_cases hv : v ∈ acc
    · rw [if_pos hv]
      constructor
      · rintro (h | h)
        · exact Or.inl h
        · exact Or.inr (List.mem_cons_of_mem v h)
      · rintro (h | h)
        · exact Or.inl h
        · rcases List.mem_cons.1 h with h | h
          · exact Or.inl (h ▸ hv)
          · exact Or.inr h
    · rw [if_neg hv]
      simp only [List.mem_append, List.mem_singleton, List.mem_cons]
      tauto

theorem mem_jsSetDedup {α : Type} [DecidableEq α] (l : List α) (x : α) :
    x ∈ jsSetDedup l ↔ x ∈ l := by
  unfold jsSetDedup
  rw [jsSetDedup_go_mem]
  simp

theorem jsSetDedup_go_nodup {α : Type} [DecidableEq α] :
    ∀ (l acc : List α), acc.Nodup →
      (l.foldl (fun acc v => if v ∈ acc then acc else acc ++ [v]) acc).Nodup := by
  intro l
  induction l with
  | nil => intro acc h; exact h
  | cons v t ih =>
    intro acc h
    rw [List.foldl_cons]
    by_cases hv : v ∈ acc
    · rw [if_pos hv]
      exact ih acc h
    · rw [if_neg hv]
      refine ih _ ?_
      rw [List.nodup_append]
      exact ⟨h, List.nodup_singleton v, by simpa using hv⟩

theorem nodup_jsSetDedup {α : Type} [DecidableEq α] (l : List α) : (jsSetDedup l).Nodup :=
  jsSetDedup_go_nodup l [] List.nodup_nil

theorem equals_convert_iff (rt : JsRt) (a b : Cell) :
    QvdSymbol.equals (convertRawToSymbol rt a) (convertRawToSymbol rt b) = true ↔ a = b := by
  constructor
  · intro h
    cases a with
    | null =>
      cases b with
      | null => rfl
      | num p =>
        by_cases hp : p.den = 1 <;>
          simp [convertRawToSymbol, QvdSymbol.equals, hp] at h
      | str s => simp [convertRawToSymbol, QvdSymbol.equals] at h
    | str s =>
      cases b with
      | null => simp [convertRawToSymbol, QvdSymbol.equals] at h
      | num p =>
        by_cases hp : p.den = 1 <;>
          simp [convertRawToSymbol, QvdSymbol.equals, hp] at h
      | str t =>
        simp [convertRawToSymbol, QvdSymbol.equals] at h
        rw [h]
    | num q =>
      cases b with
      | null =>
        by_cases hq : q.den = 1 <;>
          simp [convertRawToSymbol, QvdSymbol.equals, hq] at h
      | str t =>
        by_cases hq : q.den = 1 <;>
          simp [convertRawToSymbol, QvdSymbol.equals, hq] at h
      | num p =>
        by_cases hq : q.den = 1 <;> by_cases hp : p.den = 1 <;>
          simp [convertRawToSymbol, QvdSymbol.equals, hq, hp] at h
        · exact congrArg Cell.num (Rat.ext h.1 (hq.trans hp.symm))
        · exact congrArg Cell.num h.1
  · rintro rfl
    cases a with
    | null => simp [convertRawToSymbol, QvdSymbol.equals]
    | str s => simp [convertRawToSymbol, QvdSymbol.equals]
    | num q =>
      by_cases hq : q.den = 1 <;> simp [convertRawToSymbol, QvdSymbol.equals, hq]

theorem jsFindIndex_convert (rt : JsRt) :
    ∀ (uniq : List Cell) (v : Cell), v ∈ uniq →
    ∃ k : Nat, jsFindIndex (fun s2 => s2.equals (convertRawToSymbol rt v))
      (uniq.map (convertRawToSymbol rt)) = (k : Int) ∧ uniq.get? k = some v := by
  intro uniq
  induction uniq with
  | nil => intro v hv; cases hv
  | cons u t ih =>
    intro v hv
    unfold jsFindIndex
    rw [List.findIdx?_map]
    by_cases hu : u = v
    · subst hu
      have hp : ((fun s2 => QvdSymbol.equals s2 (convertRawToSymbol rt u)) ∘
          (convertRawToSymbol rt)) u = true := by
        show QvdSymbol.equals (convertRawToSymbol rt u) (convertRawToSymbol rt u) = true
        exact (equals_convert_iff rt u u).2 rfl
      rw [List.findIdx?_cons, if_pos hp]
      exact ⟨0, rfl, rfl⟩
    · have hp : ((fun s2 => QvdSymbol.equals s2 (convertRawToSymbol rt v)) ∘
          (convertRawToSymbol rt)) u = false := by
        show QvdSymbol.equals (convertRawToSymbol rt u) (convertRawToSymbol rt v) = false
        rcases hb : QvdSymbol.equals (convertRawToSymbol rt u) (convertRawToSymbol rt v) with
          _ | _
        · rfl
        · exact absurd ((equals_convert_iff rt u v).1 hb) hu
      have hvt : v ∈ t := by
        rcases List.mem_cons.1 hv with h | h
        · exact absurd h.symm hu
        · exact h
      obtain ⟨k, hk1, hk2⟩ := ih v hvt
      rw [List.findIdx?_cons, if_neg (by rw [hp]; exact Bool.false_ne_true), List.findIdx?_succ]
      refine ⟨k + 1, ?_, hk2⟩
      unfold jsFindIndex at hk1
      rw [List.findIdx?_map] at hk1
      cases hfi : List.findIdx? ((fun s2 => QvdSymbol.equals s2 (convertRawToSymbol rt v)) ∘
          convertRawToSymbol rt) t with
      | none =>
        rw [hfi] at hk1
        simp at hk1
      | some j =>
        rw [hfi] at hk1
        simp at hk1
        simp [hk1]

theorem findIdx_nodup_get (l : List String) (hnd : l.Nodup) :
    ∀ (k : Nat) (x : String), l.get? k = some x → l.findIdx (fun c => c == x) = k := by
  induction l with
  | nil => intro k x h; cases k <;> cases h
  | cons u t ih =>
    intro k x h
    cases k with
    | zero =>
      have hux : u = x := by
        cases h
        rfl
      rw [List.findIdx_cons, hux]
      simp
    | succ k =>
      have hxt : x ∈ t := List.get?_mem h
      have hux : u ≠ x := by
        intro he
        rw [List.nodup_cons] at hnd
        exact hnd.1 (he ▸ hxt)
      rw [List.findIdx_cons]
      have hb : (u == x) = false := by
        simpa using hux
      rw [hb]
      show List.findIdx (fun c => c == x) t + 1 = k + 1
      rw [ih (List.nodup_cons.1 hnd).2 k x h]

/-! ## Lemmas: pointwise `mapM` and the index table -/

theorem mapM_ok_pointwise {α β : Type} (f : α → Except String β) :
    ∀ (l : List α), (∀ x ∈ l, ∃ y, f x = .ok y) →
    ∃ rs, l.mapM f = .ok rs ∧ rs.length = l.length ∧
      ∀ k x, l.get? k = some x → ∃ y, rs.get? k = some y ∧ f x = .ok y := by
  intro l
  induction l with
  | nil =>
    intro _
    refine ⟨[], by rw [List.mapM_nil]; rfl, rfl, ?_⟩
    intro k x h
    cases k <;> cases h
  | cons a l ih =>
    intro h
    obtain ⟨y, hy⟩ := h a (by simp)
    obtain ⟨rs, hrs, hlen, hpt⟩ := ih (fun x hx => h x (List.mem_cons_of_mem a hx))
    refine ⟨y :: rs, ?_, by simp [hlen], ?_⟩
    · rw [List.mapM_cons, hy, hrs]
      rfl
    · intro k x hk
      cases k with
      | zero =>
        have hax : a = x := by
          cases hk
          rfl
        exact ⟨y, rfl, hax ▸ hy⟩
      | succ k => exact hpt k x hk

theorem parseRecordsF_fuel (fields : List QvdFieldMeta) (R : Nat) :
    ∀ (f : Nat) (bytes : List Nat) (f' : Nat), bytes.length ≤ f → bytes.length ≤ f' →
      parseRecordsF fields R f bytes = parseRecordsF fields R f' bytes := by
  intro f
  induction f with
  | zero =>
    intro bytes f' h h'
    have hb : bytes = [] := List.eq_nil_of_length_eq_zero (by omega)
    subst hb
    cases f' <;> rfl
  | succ f ih =>
    intro bytes f' h h'
    cases bytes with
    | nil => cases f' <;> rfl
    | cons b bs =>
      cases f' with
      | zero => simp at h'
      | succ f2 =>
        show (if R = 0 then _ else _) = (if R = 0 then _ else _)
        by_cases hR : R = 0
        · rw [if_pos hR, if_pos hR]
        · rw [if_neg hR, if_neg hR]
          have hd : (List.drop R (b :: bs)).length = (b :: bs).length - R :=
            List.length_drop R _
          have hlen : (b :: bs).length = bs.length + 1 := rfl
          rw [ih (List.drop R (b :: bs)) f2 (by omega) (by omega)]

theorem parseRecords_flatten (fields : List QvdFieldMeta) (R : Nat) (hR : 1 ≤ R) :
    ∀ (recs : List (List Nat)), (∀ r ∈ recs, r.length = R) →
    parseIndexTable fields R recs.flatten = .ok (recs.map (decodeRecordRow fields)) := by
  intro recs
  induction recs with
  | nil => intro _; rfl
  | cons r recs ih =>
    intro hr
    have hrlen : r.length = R := hr r (by simp)
    unfold parseIndexTable
    rw [List.flatten_cons]
    have hfuel : (r ++ recs.flatten).length = recs.flatten.length + R := by
      simp [hrlen]
      omega
    rw [hfuel]
    cases hrc : r with
    | nil =>
      rw [hrc] at hrlen
      simp at hrlen
      omega
    | cons b br =>
      subst hrc
      obtain ⟨R2, hR2⟩ : ∃ R2, R = R2 + 1 := ⟨R - 1, by omega⟩
      have hfuel2 : recs.flatten.length + R = (recs.flatten.length + R2) + 1 := by omega
      rw [hfuel2]
      show (if R = 0 then Except.error "Record size is zero."
        else do
          let rest ← parseRecordsF fields R (recs.flatten.length + R2)
            (((b :: br) ++ recs.flatten).drop R)
          Except.ok (decodeRecordRow fields (((b :: br) ++ recs.flatten).take R) :: rest)) = _
      rw [if_neg (by omega), List.take_left' hrlen, List.drop_left' hrlen]
      have hrec2 : parseRecordsF fields R (recs.flatten.length + R2) recs.flatten =
          .ok (recs.map (decodeRecordRow fields)) := by
        rw [parseRecordsF_fuel fields R (recs.flatten.length + R2) recs.flatten
          recs.flatten.length (by omega) (le_refl _)]
        exact ih (fun x hx => hr x (List.mem_cons_of_mem (b :: br) hx))
      rw [hrec2]
      rfl

theorem chunks8_spec : ∀ (n : Nat) (P : List Nat), P.length ≤ n → 8 ∣ P.length →
    (chunks8 P).flatten = P ∧ (∀ c ∈ chunks8 P, c.length = 8) := by
  intro n
  induction n with
  | zero =>
    intro P hn _
    have hP : P = [] := List.eq_nil_of_length_eq_zero (by omega)
    subst hP
    exact ⟨rfl, by intro c hc; cases hc⟩
  | succ n ih =>
    intro P hn h8
    cases hP : P with
    | nil => exact ⟨rfl, by intro c hc; cases hc⟩
    | cons b bs =>
      subst hP
      have hlen8 : 8 ≤ (b :: bs).length := by
        rcases h8 with ⟨k, hk⟩
        match k, hk with
        | 0, hk => simp at hk
        | k + 1, hk => omega
      have hc : (List.take 8 (b :: bs)).length = 8 := by
        rw [List.length_take]
        omega
      have hsplit : b :: bs = List.take 8 (b :: bs) ++ List.drop 8 (b :: bs) :=
        (List.take_append_drop 8 _).symm
      have hlsum : (b :: bs).length = 8 + (List.drop 8 (b :: bs)).length := by
        conv_lhs => rw [hsplit]
        rw [List.length_append, hc]
      rw [hsplit, chunks8_append8 _ _ hc]
      obtain ⟨ihf, ihc⟩ := ih (List.drop 8 (b :: bs)) (by omega)
        (by rcases h8 with ⟨k, hk⟩; exact ⟨k - 1, by omega⟩)
      constructor
      · rw [List.flatten_cons, ihf]
      · intro c hcm
        rcases List.mem_cons.1 hcm with h | h
        · rw [h, hc]
        · exact ihc c h

theorem reverse_flatten_reverse : ∀ (L : List (List Nat)),
    (L.reverse.flatten).reverse = (L.map List.reverse).flatten := by
  intro L
  induction L with
  | nil => rfl
  | cons x xs ih =>
    rw [List.reverse_cons, List.flatten_append, List.reverse_append, ih]
    simp

theorem packRow_decode (ws : List Nat) (bls : List (List Nat))
    (hlen : bls.length = ws.length)
    (hb : ∀ k, k < bls.length → (∀ b2 ∈ (bls.get? k).getD [], b2 ≤ 1) ∧
      ((bls.get? k).getD []).length ≤ (ws.get? k).getD 0)
    (hpos : 1 ≤ ws.sum) :
    ∃ rec, packRow ws bls = .ok rec ∧
      rec.length = (ws.sum + (8 - ws.sum % 8) % 8) / 8 ∧
      ∀ k, k < ws.length →
        convertBitsToInt32 (((recordBits rec).drop ((ws.take k).sum)).take
          ((ws.get? k).getD 0)) = msbVal ((bls.get? k).getD []) := by
  set padded := List.zipWith padZeros ws bls with hpad
  have hplen : padded.length = ws.length := by
    rw [hpad, List.length_zipWith]
    omega
  have hpk : ∀ k, k < ws.length → padded.get? k =
      some (padZeros ((ws.get? k).getD 0) ((bls.get? k).getD [])) := by
    intro k hk
    rw [hpad, List.get?_eq_getElem?, List.getElem?_zipWith]
    have hw : ws[k]? = some ((ws.get? k).getD 0) := by
      rw [← List.get?_eq_getElem?]
      cases hg : ws.get? k with
      | none => rw [List.get?_eq_getElem?] at hg; simp [List.getElem?_eq_none_iff] at hg; omega
      | some w => rfl
    have hbl : bls[k]? = some ((bls.get? k).getD []) := by
      rw [← List.get?_eq_getElem?]
      cases hg : bls.get? k with
      | none =>
        rw [List.get?_eq_getElem?] at hg
        simp [List.getElem?_eq_none_iff] at hg
        omega
      | some w => rfl
    rw [hw, hbl]
  have hpklen : ∀ k, k < ws.length → ((padded.get? k).getD []).length = (ws.get? k).getD 0 := by
    intro k hk
    rw [hpk k hk]
    show (padZeros ((ws.get? k).getD 0) ((bls.get? k).getD [])).length = _
    exact length_padZeros _ _ (hb k (by omega)).2
  have hmaplen : padded.map List.length = ws := by
    apply List.ext_getElem?
    intro n
    by_cases hn : n < ws.length
    · have h1 : padded[n]? = some (padZeros ((ws.get? n).getD 0) ((bls.get? n).getD [])) := by
        rw [← List.get?_eq_getElem?]
        exact hpk n hn
      rw [List.getElem?_map, h1]
      have h2 : ws[n]? = some ((ws.get? n).getD 0) := by
        rw [← List.get?_eq_getElem?]
        cases hg : ws.get? n with
        | none =>
          rw [List.get?_eq_getElem?] at hg
          simp [List.getElem?_eq_none_iff] at hg
          omega
        | some w => rfl
      rw [h2]
      show some (padZeros ((ws.get? n).getD 0) ((bls.get? n).getD [])).length = _
      rw [length_padZeros _ _ (hb n (by omega)).2]
    · rw [List.getElem?_map]
      have h1 : padded[n]? = none := by
        simp [List.getElem?_eq_none_iff]
        omega
      have h2 : ws[n]? = none := by
        simp [List.getElem?_eq_none_iff]
        omega
      rw [h1, h2]
      rfl
  have hbits_len : (padded.reverse.flatten).length = ws.sum := by
    rw [List.length_flatten, List.map_reverse, List.sum_reverse, hmaplen]
  set bits := padded.reverse.flatten with hbits
  set padW := (8 - bits.length % 8) % 8 with hpw
  set P := List.replicate padW 0 ++ bits with hP
  have hPlen : P.length = padW + ws.sum := by
    rw [hP, List.length_append, List.length_replicate, hbits_len]
  have hPdvd : 8 ∣ P.length := by
    rw [hPlen, hpw, hbits_len]
    omega
  have hPne : P.length ≠ 0 := by
    rw [hPlen]
    omega
  have hPb : ∀ b2 ∈ P, b2 ≤ 1 := by
    intro b2 hb2
    rw [hP] at hb2
    rcases List.mem_append.1 hb2 with h | h
    · rw [List.eq_of_mem_replicate h]
      omega
    · rw [hbits] at h
      rcases List.mem_flatten.1 h with ⟨l, hl, hbl⟩
      rw [List.mem_reverse] at hl
      obtain ⟨n, hn⟩ := List.mem_iff_get?.1 hl
      have hnlt : n < ws.length := by
        by_contra hc
        rw [List.get?_eq_getElem?] at hn
        have : padded[n]? = none := by
          simp [List.getElem?_eq_none_iff]
          omega
        rw [this] at hn
        cases hn
      rw [hpk n hnlt] at hn
      have hleq : l = padZeros ((ws.get? n).getD 0) ((bls.get? n).getD []) := by
        cases hn
        rfl
      rw [hleq] at hbl
      unfold padZeros at hbl
      rcases List.mem_append.1 hbl with h2 | h2
      · rw [List.eq_of_mem_replicate h2]
        omega
      · exact (hb n (by omega)).1 b2 h2
  have hPP : rowPackedBits ws bls = P := rfl
  refine ⟨((chunks8 P).map msbVal).reverse, ?_, ?_, ?_⟩
  · unfold packRow
    rw [hPP, if_neg hPne]
  · obtain ⟨hflat, hc8⟩ := chunks8_spec P.length P (le_refl _) hPdvd
    have hsum8 : ∀ (L : List (List Nat)), (∀ c ∈ L, c.length = 8) →
        (L.map List.length).sum = 8 * L.length := by
      intro L
      induction L with
      | nil => intro _; simp
      | cons c cs ihL =>
        intro hcc
        rw [List.map_cons, List.sum_cons, ihL (fun x hx => hcc x (List.mem_cons_of_mem c hx)),
          hcc c (by simp), List.length_cons]
        ring
    have hcount : 8 * (chunks8 P).length = P.length := by
      conv_rhs => rw [← hflat]
      rw [List.length_flatten, hsum8 _ hc8]
    simp only [List.length_reverse, List.length_map]
    rw [hPlen] at hcount
    rw [hbits_len] at hpw
    omega
  · intro k hk
    rw [recordBits_pack P hPb hPdvd]
    have hPrev : P.reverse = (padded.map List.reverse).flatten ++ List.replicate padW 0 := by
      rw [hP, List.reverse_append, List.reverse_replicate, hbits, reverse_flatten_reverse]
    rw [hPrev]
    have hLk : (padded.map List.reverse)[k]? =
        some (padZeros ((ws.get? k).getD 0) ((bls.get? k).getD [])).reverse := by
      rw [List.getElem?_map, ← List.get?_eq_getElem?, hpk k hk]
      rfl
    have hLlen : ((padded.map List.reverse).map List.length).take k = (ws.take k).map id := by
      rw [List.map_map]
      have : List.length ∘ List.reverse = (List.length : List Nat → Nat) := by
        funext l
        simp
      rw [this, hmaplen]
      simp
    have hext := flatten_extract (padded.map List.reverse) k (List.replicate padW 0)
      (by rw [List.length_map, hplen]; exact hk)
    rw [hLk] at hext
    simp only [Option.getD_some] at hext
    rw [hLlen] at hext
    simp only [List.map_id] at hext
    have hwk : (padZeros ((ws.get? k).getD 0) ((bls.get? k).getD [])).reverse.length =
        (ws.get? k).getD 0 := by
      rw [List.length_reverse]
      exact length_padZeros _ _ (hb k (by omega)).2
    rw [hwk] at hext
    rw [hext, convertBits_reverse, msbVal_padZeros]

theorem mapM_ok_length {α β : Type} (f : α → Except String β) :
    ∀ (l : List α) (rs : List β), l.mapM f = .ok rs → rs.length = l.length := by
  intro l
  induction l with
  | nil =>
    intro rs h
    rw [List.mapM_nil] at h
    cases h
    rfl
  | cons a l ih =>
    intro rs h
    rw [List.mapM_cons] at h
    cases ha : f a with
    | error e => rw [ha] at h; cases h
    | ok y =>
      rw [ha] at h
      cases hl : l.mapM f with
      | error e => rw [hl] at h; cases h
      | ok ys =>
        rw [hl] at h
        cases h
        simp [ih ys hl]

theorem mapM_ok_mem_rev {α β : Type} (f : α → Except String β) :
    ∀ (l : List α) (rs : List β), l.mapM f = .ok rs →
      ∀ y ∈ rs, ∃ x ∈ l, f x = .ok y := by
  intro l
  induction l with
  | nil =>
    intro rs h y hy
    rw [List.mapM_nil] at h
    cases h
    cases hy
  | cons a l ih =>
    intro rs h y hy
    rw [List.mapM_cons] at h
    cases ha : f a with
    | error e => rw [ha] at h; cases h
    | ok z =>
      rw [ha] at h
      cases hl : l.mapM f with
      | error e => rw [hl] at h; cases h
      | ok ys =>
        rw [hl] at h
        cases h
        rcases List.mem_cons.1 hy with hy | hy
        · exact ⟨a, by simp, hy ▸ ha⟩
        · obtain ⟨x, hx, hfx⟩ := ih ys hl y hy
          exact ⟨x, List.mem_cons_of_mem a hx, hfx⟩

theorem init_le_foldl_max : ∀ (l : List Nat) (a : Nat), a ≤ l.foldl Nat.max a := by
  intro l
  induction l with
  | nil => intro a; exact le_refl a
  | cons x xs ih =>
    intro a
    rw [List.foldl_cons]
    exact le_trans (Nat.le_max_left a x) (ih (Nat.max a x))

theorem le_foldl_max : ∀ (l : List Nat) (a x : Nat), x ∈ l → x ≤ l.foldl Nat.max a := by
  intro l
  induction l with
  | nil => intro a x hx; cases hx
  | cons y ys ih =>
    intro a x hx
    rw [List.foldl_cons]
    rcases List.mem_cons.1 hx with hx | hx
    · exact hx ▸ le_trans (Nat.le_max_right a x) (init_le_foldl_max ys (Nat.max a x))
    · exact ih (Nat.max a y) x hx

theorem get?_some_of_lt {α : Type} (l : List α) (k : Nat) (h : k < l.length) :
    ∃ x, l.get? k = some x := by
  cases hg : l.get? k with
  | none =>
    rw [List.get?_eq_getElem?] at hg
    simp [List.getElem?_eq_none_iff] at hg
    omega
  | some x => exact ⟨x, rfl⟩

theorem writerWidths_get (df : QvdDataFrame) (RB : List (List (List Nat))) (c : Nat)
    (hc : c < df.columns.length) :
    (writerWidths df RB).get? c = some (writerBitWidth RB c) := by
  rw [writerWidths, List.get?_eq_getElem?, List.getElem?_map, List.getElem?_range hc]
  rfl

theorem le_writerBitWidth (RB : List (List (List Nat))) (rb : List (List Nat)) (c : Nat)
    (hrb : rb ∈ RB) :
    ((rb.get? c).getD []).length ≤ writerBitWidth RB c :=
  le_foldl_max _ 0 _ (List.mem_map_of_mem _ hrb)

theorem flatten_length_uniform (R : Nat) :
    ∀ (recs : List (List Nat)), (∀ r ∈ recs, r.length = R) →
      recs.flatten.length = R * recs.length := by
  intro recs
  induction recs with
  | nil => intro _; simp
  | cons r rs ih =>
    intro h
    rw [List.flatten_cons, List.length_append, h r (by simp),
      ih (fun x hx => h x (List.mem_cons_of_mem r hx)), List.length_cons]
    ring

theorem lt_of_get?_eq_some {α : Type} {l : List α} {i : Nat} {x : α}
    (h : l.get? i = some x) : i < l.length := by
  by_contra hn
  rw [List.get?_eq_getElem?] at h
  rw [List.getElem?_eq_none (by omega)] at h
  cases h

/-- One row of `_buildIndexTable`: with distinct column names and a symbol
table whose column `c` is the converted dedup list `uniq c` containing the
row's value, every `findIndex` succeeds and returns the position of the
value in `uniq c`. -/
theorem writerRowIndices_spec (rt : JsRt) (df : QvdDataFrame) (symT : List (List QvdSymbol))
    (uniq : Nat → List Cell) (row : List Cell)
    (hnd : df.columns.Nodup)
    (hsym : ∀ c, c < df.columns.length →
      symT.get? c = some ((uniq c).map (convertRawToSymbol rt)))
    (hmem : ∀ c, c < df.columns.length → cellAt row c ∈ uniq c) :
    ∃ idxs, writerRowIndices rt df symT row = .ok idxs ∧
      idxs.length = df.columns.length ∧
      ∀ c, c < df.columns.length → ∃ i, idxs.get? c = some i ∧ i < (uniq c).length ∧
        (uniq c).get? i = some (cellAt row c) := by
  have hcol : ∀ k column, df.columns.get? k = some column →
      ∃ i, writerColumnIndex rt df symT row column = .ok i ∧ i < (uniq k).length ∧
        (uniq k).get? i = some (cellAt row k) := by
    intro k column hk
    have hklt : k < df.columns.length := lt_of_get?_eq_some hk
    have hfidx : df.columns.findIdx (fun c => c == column) = k :=
      findIdx_nodup_get df.columns hnd k column hk
    obtain ⟨i, hjf, hget⟩ := jsFindIndex_convert rt (uniq k) (cellAt row k) (hmem k hklt)
    refine ⟨i, ?_, lt_of_get?_eq_some hget, hget⟩
    unfold writerColumnIndex
    rw [hfidx, hsym k hklt]
    show (match jsFindIndex (fun s => s.equals (convertRawToSymbol rt (cellAt row k)))
        ((uniq k).map (convertRawToSymbol rt)) with
      | Int.ofNat k2 => Except.ok k2
      | Int.negSucc _ => Except.error "The symbol table does not contain the row value.") =
      Except.ok i
    rw [hjf]
  obtain ⟨idxs, hmapM, hlen, hpt⟩ := mapM_ok_pointwise (writerColumnIndex rt df symT row)
    df.columns (by
      intro column hcm
      obtain ⟨k, hk⟩ := List.get?_of_mem hcm
      obtain ⟨i, hi, _, _⟩ := hcol k column hk
      exact ⟨i, hi⟩)
  refine ⟨idxs, hmapM, hlen, ?_⟩
  intro c hc
  obtain ⟨column, hcol?⟩ := get?_some_of_lt df.columns c hc
  obtain ⟨y, hy1, hy2⟩ := hpt c column hcol?
  obtain ⟨i, hi, hilt, higet⟩ := hcol c column hcol?
  rw [hy2] at hi
  injection hi with hi
  subst hi
  exact ⟨y, hy1, hilt, higet⟩

/-- `_buildIndexTable` followed by `_parseIndexTable` recovers exactly the
symbol indices the writer assigned, provided every index fits 32 bits and
the reader's field metadata carries the writer's bit offsets and widths
with bias `0`. -/
theorem buildIndexTable_decode (rt : JsRt) (df : QvdDataFrame) (symT : List (List QvdSymbol))
    (idxRows : List (List Nat)) (idxBuf : List Nat) (idxMetas : List (Nat × Nat × Int))
    (rbs : Nat) (fields : List QvdFieldMeta)
    (h : buildIndexTable rt df symT = .ok (idxRows, idxBuf, idxMetas, rbs))
    (hcols : df.columns ≠ [])
    (hidx : ∀ row ∈ idxRows, ∀ i ∈ row, i < 2 ^ 32)
    (hflen : fields.length = df.columns.length)
    (hf : ∀ k, k < df.columns.length → ∃ fm, fields.get? k = some fm ∧
      fm.bitOffset = writerBitOffset (writerWidths df (writerRowsBits idxRows)) k ∧
      fm.bitWidth = ((writerWidths df (writerRowsBits idxRows)).get? k).getD 0 ∧
      fm.bias = 0) :
    writerIndexRows rt df symT = .ok idxRows ∧
    idxMetas = writerMetas df (writerWidths df (writerRowsBits idxRows)) ∧
    parseIndexTable fields rbs idxBuf =
      .ok (idxRows.map (fun r => r.map Int.ofNat)) := by
  unfold buildIndexTable at h
  split at h
  next e hir => cases h
  next rows0 hir =>
    split at h
    next e hrecs => cases h
    next records hrecs =>
      injection h with h
      simp only [Prod.mk.injEq] at h
      obtain ⟨h1, h2, h3, h4⟩ := h
      subst h1
      subst h2
      subst h3
      subst h4
      cases rows0 with
      | nil =>
        refine ⟨hir, rfl, ?_⟩
        simp only [writerRowsBits, List.map_nil, List.mapM_nil] at hrecs
        have hrn : records = [] := by
          cases hrecs
          rfl
        subst hrn
        rfl
      | cons r0 rest =>
        have hir2 := hir
        unfold writerIndexRows at hir2
        have hrowlen : ∀ row ∈ r0 :: rest, row.length = df.columns.length := by
          intro row hrow
          obtain ⟨x, _, hx⟩ := mapM_ok_mem_rev _ _ _ hir2 row hrow
          unfold writerRowIndices at hx
          exact mapM_ok_length _ _ _ hx
        have hcols1 : 0 < df.columns.length := List.length_pos.2 hcols
        set RB := writerRowsBits (r0 :: rest) with hRB
        set ws := writerWidths df RB with hws
        have hRBlen : RB.length = (r0 :: rest).length := by
          rw [hRB]
          simp [writerRowsBits]
        have hwslen : ws.length = df.columns.length := by
          rw [hws]
          simp [writerWidths]
        have hwsget : ∀ c, c < df.columns.length → ws.get? c = some (writerBitWidth RB c) := by
          intro c hc
          rw [hws]
          exact writerWidths_get df RB c hc
        have hRBmem : ∀ rb ∈ RB, ∃ row ∈ r0 :: rest, rb = row.map bitString := by
          intro rb hrb
          rw [hRB] at hrb
          unfold writerRowsBits at hrb
          obtain ⟨row, hrow, hmap⟩ := List.mem_map.1 hrb
          exact ⟨row, hrow, hmap.symm⟩
        have hpackhyp : ∀ rb ∈ RB, rb.length = ws.length ∧
            (∀ k, k < rb.length → (∀ b2 ∈ (rb.get? k).getD [], b2 ≤ 1) ∧
              ((rb.get? k).getD []).length ≤ (ws.get? k).getD 0) := by
          intro rb hrb
          obtain ⟨row, hrowm, hrbe⟩ := hRBmem rb hrb
          have hrl : row.length = df.columns.length := hrowlen row hrowm
          constructor
          · rw [hrbe, List.length_map, hrl, hwslen]
          · intro k hk
            have hk2 : k < row.length := by
              rw [hrbe, List.length_map] at hk
              exact hk
            obtain ⟨i, hi⟩ := get?_some_of_lt row k hk2
            have hrbk : rb.get? k = some (bitString i) := by
              rw [hrbe, List.get?_map, hi]
              rfl
            constructor
            · rw [hrbk]
              exact bitString_le_one i
            · rw [hrbk, hwsget k (by omega)]
              have hle := le_writerBitWidth RB rb k hrb
              rw [hrbk] at hle
              simpa using hle
        have hwpos : ∀ k, k < df.columns.length → 1 ≤ writerBitWidth RB k := by
          intro k hk
          have hr0 : (r0.map bitString) ∈ RB := by
            rw [hRB]
            unfold writerRowsBits
            exact List.mem_map_of_mem _ (by simp)
          have hrl : r0.length = df.columns.length := hrowlen r0 (by simp)
          obtain ⟨i, hi⟩ := get?_some_of_lt r0 k (by omega)
          have hle := le_writerBitWidth RB (r0.map bitString) k hr0
          rw [List.get?_map, hi] at hle
          have hle2 : (bitString i).length ≤ writerBitWidth RB k := by simpa using hle
          exact le_trans (bitString_pos_length i) hle2
        have hsum : 1 ≤ ws.sum := by
          obtain ⟨w0, hw0⟩ := get?_some_of_lt ws 0 (by omega)
          have hw0v : w0 = writerBitWidth RB 0 := by
            have hg := hwsget 0 (by omega)
            rw [hw0] at hg
            cases hg
            rfl
          have h1 : 1 ≤ w0 := hw0v ▸ hwpos 0 (by omega)
          cases hwsc : ws with
          | nil =>
            rw [hwsc] at hw0
            cases hw0
          | cons a l =>
            rw [hwsc] at hw0
            have ha : a = w0 := by
              cases hw0
              rfl
            rw [List.sum_cons]
            omega
        have hRpos : 1 ≤ (ws.sum + (8 - ws.sum % 8) % 8) / 8 := by omega
        obtain ⟨rs, hmapM, hrslen, hpt⟩ := mapM_ok_pointwise (packRow ws) RB (by
          intro rb hrb
          obtain ⟨hl, hbk⟩ := hpackhyp rb hrb
          obtain ⟨rec, hrec, _, _⟩ := packRow_decode ws rb hl (fun k hk => hbk k hk) hsum
          exact ⟨rec, hrec⟩)
        rw [hmapM] at hrecs
        injection hrecs with hrecs
        subst hrecs
        refine ⟨hir, rfl, ?_⟩
        have hreclen : ∀ rec ∈ rs, rec.length = (ws.sum + (8 - ws.sum % 8) % 8) / 8 := by
          intro rec hrec
          obtain ⟨rb, hrb, hpk⟩ := mapM_ok_mem_rev (packRow ws) RB rs hmapM rec hrec
          obtain ⟨hl, hbk⟩ := hpackhyp rb hrb
          obtain ⟨rec2, hrec2, hlen2, _⟩ := packRow_decode ws rb hl (fun k hk => hbk k hk) hsum
          rw [hpk] at hrec2
          injection hrec2 with he
          rw [← he] at hlen2
          exact hlen2
        have hflat : rs.flatten.length =
            ((ws.sum + (8 - ws.sum % 8) % 8) / 8) * rs.length :=
          flatten_length_uniform _ rs hreclen
        have hrs1 : rs.length = (r0 :: rest).length := by rw [hrslen, hRBlen]
        have hrbs : rs.flatten.length / (r0 :: rest).length =
            (ws.sum + (8 - ws.sum % 8) % 8) / 8 := by
          rw [hflat, hrs1]
          exact Nat.mul_div_cancel _ (by simp)
        rw [hrbs, parseRecords_flatten fields _ hRpos rs hreclen]
        have hmain : rs.map (decodeRecordRow fields) =
            (r0 :: rest).map (fun r => r.map Int.ofNat) := by
          apply List.ext_getElem?
          intro j
          by_cases hj : j < (r0 :: rest).length
          · obtain ⟨row, hrow⟩ := get?_some_of_lt (r0 :: rest) j hj
            have hrl : row.length = df.columns.length := hrowlen row (List.get?_mem hrow)
            have hRBj : RB.get? j = some (row.map bitString) := by
              rw [hRB]
              unfold writerRowsBits
              rw [List.get?_map, hrow]
              rfl
            obtain ⟨rec, hrecj, hpkj⟩ := hpt j (row.map bitString) hRBj
            have hrbmem : (row.map bitString) ∈ RB := List.get?_mem hRBj
            obtain ⟨hl, hbk⟩ := hpackhyp (row.map bitString) hrbmem
            obtain ⟨rec2, hrec2, hlen2, hext⟩ := packRow_decode ws (row.map bitString) hl
              (fun k hk => hbk k hk) hsum
            rw [hpkj] at hrec2
            injection hrec2 with he
            subst he
            have hdec : decodeRecordRow fields rec = row.map Int.ofNat := by
              simp only [decodeRecordRow]
              apply List.ext_getElem?
              intro k
              by_cases hk : k < df.columns.length
              · obtain ⟨fm, hfm, hfo, hfw, hfb⟩ := hf k hk
                obtain ⟨i, hi⟩ := get?_some_of_lt row k (by omega)
                have hival : msbVal (bitString i) = i := msbVal_bitString i
                  (hidx row (List.get?_mem hrow) i (List.get?_mem hi))
                have hex := hext k (by omega)
                have hex2 : convertBitsToInt32 (((recordBits rec).drop ((ws.take k).sum)).take
                    ((ws.get? k).getD 0)) = i := by
                  rw [hex, List.get?_map, hi]
                  simpa using hival
                rw [← List.get?_eq_getElem?, ← List.get?_eq_getElem?, List.get?_map,
                  List.get?_map, hfm, hi, Option.map_some', Option.map_some']
                rw [hfo, hfw, hfb]
                rw [if_neg (by
                  rw [hwsget k hk]
                  simp only [Option.getD_some]
                  have hw1 := hwpos k hk
                  omega)]
                unfold writerBitOffset
                rw [hex2]
                simp
              · rw [List.getElem?_eq_none (by rw [List.length_map, hflen]; omega),
                  List.getElem?_eq_none (by rw [List.length_map, hrl]; omega)]
            rw [← List.get?_eq_getElem?, ← List.get?_eq_getElem?, List.get?_map, List.get?_map,
              hrecj, hrow, Option.map_some', Option.map_some', hdec]
          · rw [List.getElem?_eq_none (by rw [List.length_map]; omega),
              List.getElem?_eq_none (by rw [List.length_map]; omega)]
        rw [hmain]

theorem range_map_get? {α : Type} (n k : Nat) (f : Nat → α) (hk : k < n) :
    ((List.range n).map f).get? k = some (f k) := by
  rw [List.get?_eq_getElem?, List.getElem?_map, List.getElem?_range hk]
  rfl

theorem writerIndexRows_lengths (rt : JsRt) (df : QvdDataFrame)
    (symT : List (List QvdSymbol)) (idxRows : List (List Nat))
    (h : writerIndexRows rt df symT = .ok idxRows) :
    ∀ row ∈ idxRows, row.length = df.columns.length := by
  intro row hrow
  have h' : df.data.mapM (writerRowIndices rt df symT) = .ok idxRows := h
  obtain ⟨x, _, hx⟩ := mapM_ok_mem_rev _ _ _ h' row hrow
  have hx' : df.columns.mapM (writerColumnIndex rt df symT x) = .ok row := hx
  exact mapM_ok_length _ _ _ hx'

theorem foldl_max_max1_go : ∀ (l : List Nat) (a : Nat),
    (l.map (fun x => Nat.max 1 x)).foldl Nat.max (Nat.max 1 a) =
      Nat.max 1 (l.foldl Nat.max a) := by
  intro l
  induction l with
  | nil => intro a; rfl
  | cons x xs ih =>
    intro a
    rw [List.map_cons, List.foldl_cons, List.foldl_cons]
    have h1 : Nat.max (Nat.max 1 a) (Nat.max 1 x) = Nat.max 1 (Nat.max a x) := by
      simp only [Nat.max_def]
      split_ifs <;> omega
    rw [h1, ih]

theorem foldl_max_max1 (l : List Nat) (hl : l ≠ []) :
    (l.map (fun x => Nat.max 1 x)).foldl Nat.max 0 = Nat.max 1 (l.foldl Nat.max 0) := by
  cases l with
  | nil => exact absurd rfl hl
  | cons x xs =>
    rw [List.map_cons, List.foldl_cons, List.foldl_cons]
    have h1 : Nat.max 0 (Nat.max 1 x) = Nat.max 1 (Nat.max 0 x) := by
      simp only [Nat.max_def]
      split_ifs <;> omega
    rw [h1, foldl_max_max1_go]

theorem mapM_error_of_mem {α β : Type} (f : α → Except String β) :
    ∀ (l : List α) (x : α), x ∈ l → (∃ e, f x = .error e) →
      ∃ e2, l.mapM f = .error e2 := by
  intro l
  induction l with
  | nil => intro x hx _; cases hx
  | cons a t ih =>
    intro x hx he
    obtain ⟨e, hfe⟩ := he
    rw [List.mapM_cons]
    rcases List.mem_cons.1 hx with hx | hx
    · subst hx
      rw [hfe]
      exact ⟨e, rfl⟩
    · cases ha : f a with
      | error e2 => exact ⟨e2, rfl⟩
      | ok y =>
        obtain ⟨e2, h2⟩ := ih x hx ⟨e, hfe⟩
        rw [h2]
        exact ⟨e2, rfl⟩

/-- `_buildSymbolTable` fails as soon as any processed column holds a value
whose symbol has no emittable byte representation. -/
theorem buildSymbolColumns_error (rt : JsRt) (df : QvdDataFrame) :
    ∀ (cols : List String) (off : Nat),
    (∃ column ∈ cols, ∃ v ∈ jsSetDedup (columnValues df
        (df.columns.findIdx (fun c2 => c2 == column))),
      ∃ e, QvdSymbol.toByteRepresentation rt (convertRawToSymbol rt v) = .error e) →
    ∃ e2, buildSymbolColumns rt df cols off = .error e2 := by
  intro cols
  induction cols with
  | nil =>
    intro off h
    obtain ⟨column, hcm, _⟩ := h
    cases hcm
  | cons column rest ih =>
    intro off h
    obtain ⟨col2, hcm, v, hv, e, he⟩ := h
    simp only [buildSymbolColumns]
    split
    next e3 heq => exact ⟨e3, rfl⟩
    next bufs heq =>
      split
      next e4 heq2 => exact ⟨e4, rfl⟩
      next symTs metas bufRest heq2 =>
        rcases List.mem_cons.1 hcm with hcc | hcc
        · subst hcc
          obtain ⟨e2, h2⟩ := mapM_error_of_mem (QvdSymbol.toByteRepresentation rt) _
            (convertRawToSymbol rt v) (List.mem_map_of_mem _ hv) ⟨e, he⟩
          rw [heq] at h2
          cases h2
        · obtain ⟨e2, h2⟩ := ih (off + bufs.flatten.length) ⟨col2, hcc, v, hv, e, he⟩
          rw [heq2] at h2
          cases h2

theorem jsSetDedup_go_length {α : Type} [DecidableEq α] :
    ∀ (l acc : List α),
      (l.foldl (fun acc v => if v ∈ acc then acc else acc ++ [v]) acc).length ≤
        acc.length + l.length := by
  intro l
  induction l with
  | nil => intro acc; simp
  | cons v t ih =>
    intro acc
    rw [List.foldl_cons]
    refine le_trans (ih _) ?_
    by_cases hv : v ∈ acc
    · rw [if_pos hv]
      simp only [List.length_cons]
      omega
    · rw [if_neg hv]
      rw [List.length_append, List.length_singleton]
      simp only [List.length_cons]
      omega

theorem jsSetDedup_length_le {α : Type} [DecidableEq α] (l : List α) :
    (jsSetDedup l).length ≤ l.length := by
  have h := jsSetDedup_go_length l ([] : List α)
  simpa [jsSetDedup] using h

theorem packRow_ok (w : Nat) (ws' : List Nat) (b : List Nat) (rb' : List (List Nat))
    (hb : b ≠ []) : ∃ rec, packRow (w :: ws') (b :: rb') = .ok rec := by
  have hne : ¬ (rowPackedBits (w :: ws') (b :: rb')).length = 0 := by
    unfold rowPackedBits
    rw [List.length_append, List.length_replicate]
    have hmem : padZeros w b ∈ (List.zipWith padZeros (w :: ws') (b :: rb')).reverse := by
      rw [List.zipWith_cons_cons, List.mem_reverse]
      simp
    have hlen : (padZeros w b).length ≤
        ((List.zipWith padZeros (w :: ws') (b :: rb')).reverse.flatten).length := by
      rw [List.length_flatten]
      exact List.le_sum_of_mem (List.mem_map_of_mem _ hmem)
    have hbpos : 1 ≤ b.length := by
      cases b with
      | nil => exact absurd rfl hb
      | cons x xs => simp
    have hppos : 1 ≤ (padZeros w b).length := by
      unfold padZeros
      rw [List.length_append, List.length_replicate]
      omega
    omega
  refine ⟨((chunks8 (rowPackedBits (w :: ws') (b :: rb'))).map msbVal).reverse, ?_⟩
  unfold packRow
  rw [if_neg hne]

/-- For rows produced by `writerRowIndices` over a non-empty column list,
every index row packs into record bytes without error. -/
theorem writerRows_pack_ok (rt : JsRt) (df : QvdDataFrame) (symT : List (List QvdSymbol))
    (idxRows : List (List Nat)) (hir : writerIndexRows rt df symT = .ok idxRows)
    (hcols : df.columns ≠ []) :
    ∃ records, (writerRowsBits idxRows).mapM
      (packRow (writerWidths df (writerRowsBits idxRows))) = .ok records := by
  have hrowlen := writerIndexRows_lengths rt df symT idxRows hir
  have hcols1 : 0 < df.columns.length := List.length_pos.2 hcols
  obtain ⟨records, hrec, _, _⟩ := mapM_ok_pointwise
    (packRow (writerWidths df (writerRowsBits idxRows))) (writerRowsBits idxRows)
    (by
      intro rb hrb
      unfold writerRowsBits at hrb
      obtain ⟨row, hrow, hmap⟩ := List.mem_map.1 hrb
      have hrl : row.length = df.columns.length := hrowlen row hrow
      subst hmap
      cases hrc : row with
      | nil =>
        rw [hrc] at hrl
        simp at hrl
        omega
      | cons i row' =>
        cases hws : writerWidths df (writerRowsBits idxRows) with
        | nil =>
          have hwl : (writerWidths df (writerRowsBits idxRows)).length =
              df.columns.length := by
            simp [writerWidths]
          rw [hws] at hwl
          simp at hwl
          omega
        | cons w ws' =>
          rw [List.map_cons]
          have hbne : bitString i ≠ [] := by
            intro hnil
            have hp := bitString_pos_length i
            rw [hnil] at hp
            simp at hp
          exact packRow_ok w ws' (bitString i) _ hbne)
  exact ⟨records, hrec⟩

theorem buildSymbolColumns_cons_eq (rt : JsRt) (df : QvdDataFrame) (column : String)
    (rest : List String) (off : Nat) (bufs : List (List Nat))
    (symTs : List (List QvdSymbol)) (metas : List (Nat × Nat)) (bufRest : List Nat)
    (hbufs : ((jsSetDedup (columnValues df (df.columns.findIdx
        (fun c2 => c2 == column)))).map (convertRawToSymbol rt)).mapM
      (QvdSymbol.toByteRepresentation rt) = .ok bufs)
    (hrec : buildSymbolColumns rt df rest (off + bufs.flatten.length) =
      .ok (symTs, metas, bufRest)) :
    buildSymbolColumns rt df (column :: rest) off = .ok
      ((jsSetDedup (columnValues df (df.columns.findIdx
          (fun c2 => c2 == column)))).map (convertRawToSymbol rt) :: symTs,
        (off, bufs.flatten.length) :: metas, bufs.flatten ++ bufRest) := by
  simp only [buildSymbolColumns, hbufs, hrec]

theorem buildSymbolColumns_ok (rt : JsRt) (df : QvdDataFrame) :
    ∀ (cols : List String) (off : Nat),
    (∀ column ∈ cols, ∀ v ∈ jsSetDedup (columnValues df
        (df.columns.findIdx (fun c2 => c2 == column))),
      ∃ bs, QvdSymbol.toByteRepresentation rt (convertRawToSymbol rt v) = .ok bs) →
    ∃ symTs metas buf, buildSymbolColumns rt df cols off = .ok (symTs, metas, buf) := by
  intro cols
  induction cols with
  | nil => intro off _; exact ⟨[], [], [], rfl⟩
  | cons column rest ih =>
    intro off h
    obtain ⟨bufs, hbufs, _, _⟩ := mapM_ok_pointwise (QvdSymbol.toByteRepresentation rt)
      ((jsSetDedup (columnValues df (df.columns.findIdx (fun c2 => c2 == column)))).map
        (convertRawToSymbol rt))
      (by
        intro x hx
        obtain ⟨v, hv, hvx⟩ := List.mem_map.1 hx
        obtain ⟨bs, hbs⟩ := h column (by simp) v hv
        exact ⟨bs, hvx ▸ hbs⟩)
    obtain ⟨symTs, metas, bufRest, hrec⟩ := ih (off + bufs.flatten.length)
      (fun c2 hc2 => h c2 (List.mem_cons_of_mem column hc2))
    exact ⟨_, _, _, buildSymbolColumns_cons_eq rt df column rest off bufs symTs metas
      bufRest hbufs hrec⟩

theorem buildIndexTable_eq_ok (rt : JsRt) (df : QvdDataFrame) (symT : List (List QvdSymbol))
    (idxRows : List (List Nat)) (records : List (List Nat))
    (hir : writerIndexRows rt df symT = .ok idxRows)
    (hrecs : (writerRowsBits idxRows).mapM
      (packRow (writerWidths df (writerRowsBits idxRows))) = .ok records) :
    buildIndexTable rt df symT = .ok (idxRows, records.flatten,
      writerMetas df (writerWidths df (writerRowsBits idxRows)),
      records.flatten.length / idxRows.length) := by
  simp only [buildIndexTable, hir, hrecs]

theorem range_map_getD {α : Type} (l : List α) (d : α) :
    (List.range l.length).map (fun i => (l.get? i).getD d) = l := by
  apply List.ext_getElem?
  intro k
  by_cases hk : k < l.length
  · rw [List.getElem?_map, List.getElem?_range hk, Option.map_some']
    obtain ⟨x, hx⟩ := get?_some_of_lt l k hk
    show some ((l.get? k).getD d) = l[k]?
    rw [hx, ← List.get?_eq_getElem?, hx]
    rfl
  · rw [List.getElem?_eq_none (by simp; omega), List.getElem?_eq_none (by omega)]

/-! ## Claims -/

/-- C4 (code bug): a buffer without the `0x0D 0x0A 0x00` terminator is not
rejected.  `Buffer.indexOf` returns `-1` for the two-byte buffer
`[0x41, 0x42]`, yet `_parseHeader`'s truthiness test
`if (!headerDelimiterIndex)` only fires on offset `0`, so parsing proceeds
with header end offset `-1 + 3 = 2` instead of failing. -/
theorem c4_header_delimiter_truthiness :
    jsIndexOfSeq [65, 66] [13, 10, 0] = -1 ∧
    parseHeaderDelimiter [65, 66] = .ok 2 := by
  exact ⟨by decide, by decide⟩

/-- C7 (code bug): with `RecordByteSize = 1` and an index slice of
`2 * 1 + 1` bytes (two records plus the one-byte slack the reader's
`Length + 1` slice admits), `_parseIndexTable` decodes three rows — the
padding byte becomes a spurious record instead of being ignored. -/
theorem c7_padding_extra_record :
    parseIndexTable [⟨"A", 0, 3, 0, 1, 0, 1⟩] 1 [0, 1, 0] =
      .ok [[0], [1], [0]] := by
  decide

/-- C5 counterexample: a dual-integer symbol whose integer component is `0`
is not emitted as tag `5`; the truthiness test `if (this._intValue && ...)`
treats the `0` as absent and emits the string branch (tag `4`). -/
theorem c5_emission_counterexample :
    QvdSymbol.toByteRepresentation testRt ⟨some 0, none, some "0"⟩ =
      .ok ([4] ++ utf8Encode "0" ++ [0]) ∧
    QvdSymbol.toByteRepresentation testRt ⟨some 0, none, some "0"⟩ ≠
      .ok ([5] ++ int32Bytes 0 ++ utf8Encode "0" ++ [0]) := by
  exact ⟨by decide, by decide⟩

/-- C5 (amended): the wire emissions hold for truthy components: a dual-int
symbol with a non-zero in-range integer and non-empty text emits tag `5`,
the 4-byte little-endian integer, the UTF-8 text and `0x00`; a dual-double
symbol with a non-zero double and non-empty text emits tag `6`, the 8
double bytes, the text and `0x00`; a string symbol with non-empty text
emits tag `4`, the text and `0x00`.  (For integer `0`, double `0.0` or
empty text the source's truthiness tests fall through to another branch —
see the counterexample.) -/
theorem c5_emission (rt : JsRt) (i : Int) (d : ℚ) (s : String)
    (hi : i ≠ 0) (hr : -2147483648 ≤ i ∧ i ≤ 2147483647) (hd : d ≠ 0) (hs : s ≠ "") :
    QvdSymbol.toByteRepresentation rt ⟨some i, none, some s⟩ =
      .ok ([5] ++ int32Bytes i ++ utf8Encode s ++ [0]) ∧
    QvdSymbol.toByteRepresentation rt ⟨none, some d, some s⟩ =
      .ok ([6] ++ rt.dblToBytes d ++ utf8Encode s ++ [0]) ∧
    QvdSymbol.toByteRepresentation rt ⟨none, none, some s⟩ =
      .ok ([4] ++ utf8Encode s ++ [0]) :=
  ⟨toByteRepresentation_dualInt rt i s hi hs hr,
    toByteRepresentation_dualDouble rt d s hd hs,
    toByteRepresentation_string rt s hs⟩

/-- Witness for C5 at `i = 7`, `d = 1/2`, `s = "A"`. -/
theorem c5_emission_witness :
    QvdSymbol.toByteRepresentation testRt ⟨some 7, none, some "A"⟩ =
      .ok ([5] ++ int32Bytes 7 ++ utf8Encode "A" ++ [0]) ∧
    QvdSymbol.toByteRepresentation testRt ⟨none, some (1 / 2), some "A"⟩ =
      .ok ([6] ++ testRt.dblToBytes (1 / 2) ++ utf8Encode "A" ++ [0]) ∧
    QvdSymbol.toByteRepresentation testRt ⟨none, none, some "A"⟩ =
      .ok ([4] ++ utf8Encode "A" ++ [0]) :=
  c5_emission testRt 7 (1 / 2) "A" (by decide) (by decide) (by norm_num) (by decide)

/-- C6 counterexample: a record whose decoded symbol index (`0 + Bias 3`)
lies outside the column's one-symbol sequence does not make the reader
fail; `load` succeeds and materializes the cell as `undefined`
(`Cell.null`). -/
theorem c6_out_of_range_counterexample :
    load testRt ⟨[⟨"A", 0, 3, 0, 0, 3, 1⟩], 1, 1, 3, 1⟩ [4, 65, 0, 0] =
      .ok ⟨["A"], [[Cell.null]]⟩ := by
  decide

/-- C6 (amended): the reader performs no range check.  For any symbol
index outside `[0, symbol_count)` of an existing column, the lookup
`this._symbolTable?.[fieldIndex][symbolIndex]` yields `undefined` and the
cell value is `Cell.null`; decoding does not fail. -/
theorem c6_out_of_range_null (rt : JsRt) (symT : List (List QvdSymbol)) (c : Nat)
    (i : Int) (col : List QvdSymbol) (hc : symT.get? c = some col)
    (hoob : i < 0 ∨ col.length ≤ i.toNat) :
    symbolCellValue rt (lookupSymbol symT c i) = Cell.null := by
  unfold lookupSymbol
  rw [hc]
  show symbolCellValue rt (if i < 0 then none else col.get? i.toNat) = Cell.null
  by_cases hneg : i < 0
  · rw [if_pos hneg]
    rfl
  · rcases hoob with h | h
    · exact absurd h hneg
    · rw [if_neg hneg, List.get?_eq_getElem?, List.getElem?_eq_none h]
      rfl

/-- Witness for C6: index `3` into a one-symbol column. -/
theorem c6_out_of_range_null_witness :
    symbolCellValue testRt (lookupSymbol [[⟨none, none, some "A"⟩]] 0 3) = Cell.null :=
  c6_out_of_range_null testRt [[⟨none, none, some "A"⟩]] 0 3 [⟨none, none, some "A"⟩]
    (by decide) (Or.inr (by decide))

/-- C3 counterexample: a string symbol with text `"42"` does not surface as
the text `"42"`: `getRow` passes the primary value through `Number(value)`
and stores the number `42` in the cell. -/
theorem c3_primary_value_counterexample :
    load testRt ⟨[⟨"A", 0, 4, 0, 0, 0, 1⟩], 1, 1, 4, 1⟩ [4, 52, 50, 0, 0] =
      .ok ⟨["A"], [[Cell.num 42]]⟩ ∧
    QvdSymbol.toPrimaryValue ⟨none, none, some "42"⟩ = Cell.str "42" ∧
    Cell.num 42 ≠ Cell.str "42" := by
  exact ⟨by decide, by decide, by decide⟩

/-- C3 (amended): the cell value `getRow` materializes is the symbol's
primary value (string, else integer, else double component), except that a
string primary value accepted by `Number(·)` is replaced by that number;
only non-numeric strings survive bit-for-bit. -/
theorem c3_cell_value (rt : JsRt) (sym : QvdSymbol) :
    (∀ s, sym.toPrimaryValue = Cell.str s → rt.strToNum s = none →
      symbolCellValue rt (some sym) = Cell.str s) ∧
    (∀ s q, sym.toPrimaryValue = Cell.str s → rt.strToNum s = some q →
      symbolCellValue rt (some sym) = Cell.num q) ∧
    (∀ q, sym.toPrimaryValue = Cell.num q → symbolCellValue rt (some sym) = Cell.num q) ∧
    (sym.toPrimaryValue = Cell.null → symbolCellValue rt (some sym) = Cell.null) := by
  refine ⟨?_, ?_, ?_, ?_⟩
  · intro s hs hn
    simp [symbolCellValue, hs, hn]
  · intro s q hs hq
    simp [symbolCellValue, hs, hq]
  · intro q hq
    simp [symbolCellValue, hq]
  · intro hq
    simp [symbolCellValue, hq]

/-- Witness for C3: the non-numeric string `"x"` survives, and the numeric
string `"42"` is converted. -/
theorem c3_cell_value_witness :
    symbolCellValue testRt (some ⟨none, none, some "x"⟩) = Cell.str "x" ∧
    symbolCellValue testRt (some ⟨none, none, some "42"⟩) = Cell.num 42 :=
  ⟨(c3_cell_value testRt ⟨none, none, some "x"⟩).1 "x" (by decide) (by decide),
    (c3_cell_value testRt ⟨none, none, some "42"⟩).2.1 "42" 42 (by decide) (by decide)⟩

/-- C9: for a table with distinct column names, every column of the symbol
table `_buildSymbolTable` builds is the first-occurrence deduplication of
that column's raw values, converted to symbols in order, and contains no
two symbols that `QvdSymbol.equals` considers structurally equal. -/
theorem c9_symbol_dedup (rt : JsRt) (df : QvdDataFrame)
    (symT : List (List QvdSymbol)) (symMetas : List (Nat × Nat)) (symBuf : List Nat)
    (h : buildSymbolTable rt df = .ok (symT, symMetas, symBuf))
    (hnd : df.columns.Nodup) (c : Nat) (hc : c < df.columns.length) :
    symT.get? c = some ((jsSetDedup (columnValues df c)).map (convertRawToSymbol rt)) ∧
    ∀ col, symT.get? c = some col →
      List.Pairwise (fun a b => QvdSymbol.equals a b = false) col := by
  have h' : buildSymbolColumns rt df df.columns 0 = .ok (symT, symMetas, symBuf) := h
  obtain ⟨_, _, _, _, hk⟩ := buildSymbolColumns_spec rt df df.columns 0 symT symMetas symBuf h'
  obtain ⟨colk, moff, mlen, uniq, hc1, hc2, hc3, hc4, hc5, hc6, hc7⟩ := hk c hc
  have hfid : df.columns.findIdx (fun c2 => c2 == colk) = c :=
    findIdx_nodup_get df.columns hnd c colk hc1
  rw [hfid] at hc3
  subst hc3
  refine ⟨hc4, ?_⟩
  intro col hcol
  rw [hc4] at hcol
  injection hcol with hcol
  subst hcol
  rw [List.pairwise_map]
  refine List.Pairwise.imp ?_ (nodup_jsSetDedup _)
  intro a b hab
  cases hb : QvdSymbol.equals (convertRawToSymbol rt a) (convertRawToSymbol rt b) with
  | false => rfl
  | true => exact absurd ((equals_convert_iff rt a b).1 hb) hab

/-- Witness for C9 on a one-column, two-row table. -/
theorem c9_symbol_dedup_witness :
    [[(⟨some 1, none, some "1"⟩ : QvdSymbol), ⟨some 2, none, some "2"⟩]].get? 0 =
      some ((jsSetDedup (columnValues ⟨["A"], [[Cell.num 1], [Cell.num 2]]⟩ 0)).map
        (convertRawToSymbol testRt)) ∧
    ∀ col, [[(⟨some 1, none, some "1"⟩ : QvdSymbol), ⟨some 2, none, some "2"⟩]].get? 0 =
        some col →
      List.Pairwise (fun a b => QvdSymbol.equals a b = false) col :=
  c9_symbol_dedup testRt ⟨["A"], [[Cell.num 1], [Cell.num 2]]⟩
    [[⟨some 1, none, some "1"⟩, ⟨some 2, none, some "2"⟩]] [(0, 14)]
    [5, 1, 0, 0, 0, 49, 0, 5, 2, 0, 0, 0, 50, 0] (by decide) (by decide) 0 (by decide)

/-- C10: a table holding a `null`/`undefined` or empty-string cell cannot
be saved: the cell converts to a symbol all of whose components are falsy,
`toByteRepresentation` rejects it, and `save` returns an error instead of
producing a file. -/
theorem c10_empty_value_error (rt : JsRt) (df : QvdDataFrame) (r c : Nat) (row : List Cell)
    (hnd : df.columns.Nodup)
    (hrow : df.data.get? r = some row) (hc : c < df.columns.length)
    (hbad : cellAt row c = Cell.null ∨ cellAt row c = Cell.str "") :
    (∃ e, save rt df = .error e) ∧
    QvdSymbol.toByteRepresentation rt (convertRawToSymbol rt (cellAt row c)) =
      .error "The symbol does not contain any value." := by
  have hrep : QvdSymbol.toByteRepresentation rt (convertRawToSymbol rt (cellAt row c)) =
      .error "The symbol does not contain any value." := by
    rcases hbad with h | h <;> rw [h] <;> rfl
  obtain ⟨colc, hcolc⟩ := get?_some_of_lt df.columns c hc
  have hfid : df.columns.findIdx (fun c2 => c2 == colc) = c :=
    findIdx_nodup_get df.columns hnd c colc hcolc
  have hvmem : cellAt row c ∈ jsSetDedup (columnValues df
      (df.columns.findIdx (fun c2 => c2 == colc))) := by
    rw [hfid]
    exact (mem_jsSetDedup _ _).2 (List.mem_map_of_mem _ (List.get?_mem hrow))
  obtain ⟨e2, h2⟩ := buildSymbolColumns_error rt df df.columns 0
    ⟨colc, List.get?_mem hcolc, cellAt row c, hvmem,
      "The symbol does not contain any value.", hrep⟩
  have h3 : buildSymbolTable rt df = .error e2 := h2
  refine ⟨⟨e2, ?_⟩, hrep⟩
  unfold save
  rw [h3]

/-- Witness for C10: a single `null` cell. -/
theorem c10_empty_value_error_witness :
    (∃ e, save testRt ⟨["A"], [[Cell.null]]⟩ = .error e) ∧
    QvdSymbol.toByteRepresentation testRt (convertRawToSymbol testRt
      (cellAt [Cell.null] 0)) = .error "The symbol does not contain any value." :=
  c10_empty_value_error testRt ⟨["A"], [[Cell.null]]⟩ 0 0 [Cell.null]
    (by decide) (by decide) (by decide) (Or.inl (by decide))

/-- C2: decoding the writer's packed index records with the writer's own
`(BitOffset, BitWidth, Bias)` metadata — using the reader's extraction
semantics (`recordBits`: reverse the bytes, expand MSB-first, reverse;
then take `BitWidth` bits at `BitOffset` least-significant-first) —
recovers exactly the symbol indices the writer assigned, for every row
and column. -/
theorem c2_bit_layout_roundtrip (rt : JsRt) (df : QvdDataFrame)
    (symT : List (List QvdSymbol)) (idxRows : List (List Nat)) (idxBuf : List Nat)
    (idxMetas : List (Nat × Nat × Int)) (rbs : Nat)
    (h : buildIndexTable rt df symT = .ok (idxRows, idxBuf, idxMetas, rbs))
    (hcols : df.columns ≠ [])
    (hidx : ∀ row ∈ idxRows, ∀ i ∈ row, i < 2 ^ 32) :
    parseIndexTable (idxMetas.map (fun m =>
        (⟨"", 0, 0, m.1, m.2.1, m.2.2, 0⟩ : QvdFieldMeta))) rbs idxBuf =
      .ok (idxRows.map (fun r => r.map Int.ofNat)) := by
  obtain ⟨hir, hmetas, hparse1⟩ := buildIndexTable_decode rt df symT idxRows idxBuf idxMetas
    rbs ((List.range df.columns.length).map (fun k =>
      (⟨"", 0, 0,
        writerBitOffset (writerWidths df (writerRowsBits idxRows)) k,
        ((writerWidths df (writerRowsBits idxRows)).get? k).getD 0, 0, 0⟩ : QvdFieldMeta)))
    h hcols hidx (by simp)
    (by
      intro k hk
      rw [range_map_get? _ _ _ hk]
      exact ⟨_, rfl, rfl, rfl, rfl⟩)
  obtain ⟨_, _, hparse2⟩ := buildIndexTable_decode rt df symT idxRows idxBuf idxMetas
    rbs (idxMetas.map (fun m => (⟨"", 0, 0, m.1, m.2.1, m.2.2, 0⟩ : QvdFieldMeta)))
    h hcols hidx
    (by rw [hmetas]; simp [writerMetas])
    (by
      intro k hk
      rw [hmetas]
      simp only [writerMetas, List.map_map]
      rw [range_map_get? _ _ _ hk]
      exact ⟨_, rfl, rfl, rfl, rfl⟩)
  exact hparse2

/-- Witness for C2 on a one-column, two-row table. -/
theorem c2_bit_layout_roundtrip_witness :
    parseIndexTable ([((0 : Nat), (1 : Nat), (0 : Int))].map (fun m =>
        (⟨"", 0, 0, m.1, m.2.1, m.2.2, 0⟩ : QvdFieldMeta))) 1 [0, 1] =
      .ok ([[0], [1]].map (fun r => r.map Int.ofNat)) :=
  c2_bit_layout_roundtrip testRt ⟨["A"], [[Cell.num 1], [Cell.num 2]]⟩
    [[⟨some 1, none, some "1"⟩, ⟨some 2, none, some "2"⟩]]
    [[0], [1]] [0, 1] [(0, 1, 0)] 1 (by rfl) (by decide) (by decide)

/-- C8: the writer's declared `BitWidth` for column `c` is
`max 1 (max over rows of ceil(log2(idx + 1)))`, the bit length of the
largest symbol index assigned in that column (so `1` for a single-symbol
column, where every index is `0`). -/
theorem c8_bit_width (rt : JsRt) (df : QvdDataFrame) (symT : List (List QvdSymbol))
    (idxRows : List (List Nat)) (idxBuf : List Nat) (idxMetas : List (Nat × Nat × Int))
    (rbs : Nat) (c : Nat)
    (h : buildIndexTable rt df symT = .ok (idxRows, idxBuf, idxMetas, rbs))
    (hc : c < df.columns.length)
    (hrows : idxRows ≠ [])
    (hidx : ∀ row ∈ idxRows, ∀ i ∈ row, i < 2 ^ 32) :
    ∃ m, idxMetas.get? c = some m ∧
      m.2.1 = Nat.max 1 ((idxRows.map (fun row =>
        Nat.clog 2 ((row.get? c).getD 0 + 1))).foldl Nat.max 0) := by
  unfold buildIndexTable at h
  split at h
  next e hir => cases h
  next rows0 hir =>
    split at h
    next e hrecs => cases h
    next records hrecs =>
      injection h with h
      simp only [Prod.mk.injEq] at h
      obtain ⟨h1, h2, h3, h4⟩ := h
      subst h1
      subst h3
      have hrowlen := writerIndexRows_lengths rt df symT rows0 hir
      refine ⟨(writerBitOffset (writerWidths df (writerRowsBits rows0)) c,
        ((writerWidths df (writerRowsBits rows0)).get? c).getD 0, (0 : Int)), ?_, ?_⟩
      · simp only [writerMetas]
        rw [range_map_get? _ _ _ hc]
      · show ((writerWidths df (writerRowsBits rows0)).get? c).getD 0 = _
        rw [writerWidths_get df _ c hc]
        show writerBitWidth (writerRowsBits rows0) c = _
        unfold writerBitWidth writerRowsBits
        rw [List.map_map]
        have hcongr : rows0.map ((fun rb => ((rb.get? c).getD []).length) ∘
            (fun r => r.map bitString)) =
            rows0.map (fun row => Nat.max 1 (Nat.clog 2 ((row.get? c).getD 0 + 1))) := by
          apply List.map_congr_left
          intro row hrow
          have hrl : row.length = df.columns.length := hrowlen row hrow
          obtain ⟨i, hi⟩ := get?_some_of_lt row c (by omega)
          show (((row.map bitString).get? c).getD []).length = _
          rw [List.get?_map, hi]
          show (bitString i).length = _
          rw [length_bitString i (hidx row hrow i (List.get?_mem hi))]
          rfl
        rw [hcongr]
        have hmm : rows0.map (fun row => Nat.max 1 (Nat.clog 2 ((row.get? c).getD 0 + 1))) =
            (rows0.map (fun row => Nat.clog 2 ((row.get? c).getD 0 + 1))).map
              (fun x => Nat.max 1 x) := by
          rw [List.map_map]
          rfl
        rw [hmm, foldl_max_max1 _ (by simpa using hrows)]

/-- Witness for C8 on the spec's `[[1,"A"],…,[5,"E"]]` example: the emitted
layout has bit widths `[3, 3]`, `RecordByteSize` `1` and a 5-byte index
region. -/
theorem c8_bit_width_witness :
    buildIndexTable testRt ⟨["Key", "Value"],
        [[Cell.num 1, Cell.str "A"], [Cell.num 2, Cell.str "B"], [Cell.num 3, Cell.str "C"],
         [Cell.num 4, Cell.str "D"], [Cell.num 5, Cell.str "E"]]⟩
      [[⟨some 1, none, some "1"⟩, ⟨some 2, none, some "2"⟩, ⟨some 3, none, some "3"⟩,
        ⟨some 4, none, some "4"⟩, ⟨some 5, none, some "5"⟩],
       [⟨none, none, some "A"⟩, ⟨none, none, some "B"⟩, ⟨none, none, some "C"⟩,
        ⟨none, none, some "D"⟩, ⟨none, none, some "E"⟩]] =
      .ok ([[0, 0], [1, 1], [2, 2], [3, 3], [4, 4]], [0, 9, 18, 27, 36],
        [(0, 3, 0), (3, 3, 0)], 1) ∧
    ([0, 9, 18, 27, 36] : List Nat).length = 5 ∧
    (∃ m, [((0 : Nat), (3 : Nat), (0 : Int)), (3, 3, 0)].get? 0 = some m ∧
      m.2.1 = Nat.max 1 ((([[0, 0], [1, 1], [2, 2], [3, 3], [4, 4]] :
          List (List Nat)).map (fun row =>
        Nat.clog 2 ((row.get? 0).getD 0 + 1))).foldl Nat.max 0)) :=
  ⟨by rfl, by decide,
    c8_bit_width testRt ⟨["Key", "Value"],
        [[Cell.num 1, Cell.str "A"], [Cell.num 2, Cell.str "B"], [Cell.num 3, Cell.str "C"],
         [Cell.num 4, Cell.str "D"], [Cell.num 5, Cell.str "E"]]⟩
      [[⟨some 1, none, some "1"⟩, ⟨some 2, none, some "2"⟩, ⟨some 3, none, some "3"⟩,
        ⟨some 4, none, some "4"⟩, ⟨some 5, none, some "5"⟩],
       [⟨none, none, some "A"⟩, ⟨none, none, some "B"⟩, ⟨none, none, some "C"⟩,
        ⟨none, none, some "D"⟩, ⟨none, none, some "E"⟩]]
      [[0, 0], [1, 1], [2, 2], [3, 3], [4, 4]] [0, 9, 18, 27, 36]
      [(0, 3, 0), (3, 3, 0)] 1 0 (by rfl) (by decide) (by decide) (by decide)⟩

/-- C1 counterexample: decode-then-encode can fail outright.  The QVD body
below decodes (the reader turns the string symbol `"9999999999"` into the
number `9999999999` through `getRow`'s `Number(value)` conversion), but
saving the decoded table errors: the whole number exceeds `writeInt32LE`'s
signed 32-bit range, so no byte stream is produced at all — decoding the
re-encoding cannot yield the table back. -/
theorem c1_decode_encode_counterexample :
    load testRt ⟨[⟨"A", 0, 12, 0, 0, 0, 1⟩], 1, 1, 12, 1⟩
        [4, 57, 57, 57, 57, 57, 57, 57, 57, 57, 57, 0, 0] =
      .ok ⟨["A"], [[Cell.num 9999999999]]⟩ ∧
    save testRt ⟨["A"], [[Cell.num 9999999999]]⟩ =
      .error "RangeError: The value of value is out of range." := by
  exact ⟨by decide, by decide⟩

/-- C1 (amended): encode-then-decode round trip.  For a well-formed table —
at least one column, distinct column names, rectangular rows, at most
`2^32` rows, and every cell a `goodCell` (no `null` or empty values,
whole numbers in the signed 32-bit range, number formatting that
`Number(·)` parses back, non-numeric NUL-free strings) — `save` succeeds
and `load` of the produced layout and body returns the table unchanged.
The spec's unconditional decode∘encode∘decode claim fails (see the
counterexample): a decoded table can hold an out-of-range number whose
re-encoding throws. -/
theorem c1_round_trip (rt : JsRt) (df : QvdDataFrame)
    (hcols : df.columns ≠ [])
    (hnd : df.columns.Nodup)
    (hrect : ∀ row ∈ df.data, row.length = df.columns.length)
    (hcount : df.data.length ≤ 2 ^ 32)
    (hgood : ∀ row ∈ df.data, ∀ cell ∈ row, goodCell rt cell) :
    ∃ layout buf, save rt df = .ok (layout, buf) ∧ load rt layout buf = .ok df := by
  have hcols1 : 0 < df.columns.length := List.length_pos.2 hcols
  have hgoodCV : ∀ c, c < df.columns.length →
      ∀ v ∈ jsSetDedup (columnValues df c), goodCell rt v := by
    intro c hc v hv
    have hv2 : v ∈ columnValues df c := (mem_jsSetDedup _ _).1 hv
    unfold columnValues at hv2
    obtain ⟨row, hrow, hvc⟩ := List.mem_map.1 hv2
    have hrl : row.length = df.columns.length := hrect row hrow
    obtain ⟨x, hx⟩ := get?_some_of_lt row c (by omega)
    have hcell : cellAt row c = x := by
      unfold cellAt
      rw [hx]
      rfl
    have hvx : v = x := by rw [← hvc, hcell]
    rw [hvx]
    exact hgood row hrow x (List.get?_mem hx)
  have hemitok : ∀ c, c < df.columns.length →
      ∀ v ∈ jsSetDedup (columnValues df c),
        ∃ bs, QvdSymbol.toByteRepresentation rt (convertRawToSymbol rt v) = .ok bs := by
    intro c hc v hv
    obtain ⟨bs, sym2, hemit, _, _, _⟩ := parseOne_emit rt v (hgoodCV c hc v hv)
    exact ⟨bs, hemit⟩
  obtain ⟨symT, symMetas, symBuf, hsymcols⟩ := buildSymbolColumns_ok rt df df.columns 0
    (by
      intro column hcm v hv
      obtain ⟨k, hk⟩ := List.get?_of_mem hcm
      have hfid : df.columns.findIdx (fun c2 => c2 == column) = k :=
        findIdx_nodup_get df.columns hnd k column hk
      rw [hfid] at hv
      exact hemitok k (lt_of_get?_eq_some hk) v hv)
  have hsym : buildSymbolTable rt df = .ok (symT, symMetas, symBuf) := hsymcols
  obtain ⟨hslen, hmlen, hlast, hlastnone, hkk⟩ :=
    buildSymbolColumns_spec rt df df.columns 0 symT symMetas symBuf hsymcols
  have hcol : ∀ c, c < df.columns.length → ∃ moff mlen,
      symMetas.get? c = some (moff, mlen) ∧
      symT.get? c = some ((jsSetDedup (columnValues df c)).map (convertRawToSymbol rt)) ∧
      ∃ syms2, parseSymbols rt (symBuf.drop moff) mlen = .ok syms2 ∧
        syms2.map (fun s2 => symbolCellValue rt (some s2)) = jsSetDedup (columnValues df c) ∧
        syms2.length = (jsSetDedup (columnValues df c)).length := by
    intro c hc
    obtain ⟨colk, moff, mlen, uniq, hc1, hc2, hc3, hc4, hc5, hc6, hc7⟩ := hkk c hc
    have hfid : df.columns.findIdx (fun c2 => c2 == colk) = c :=
      findIdx_nodup_get df.columns hnd c colk hc1
    rw [hfid] at hc3
    subst hc3
    obtain ⟨syms2, hp, hvv, hl⟩ := hc7 (hgoodCV c hc)
    rw [Nat.sub_zero] at hp
    exact ⟨moff, mlen, hc2, hc4, syms2, hp, hvv, hl⟩
  have hsymget : ∀ c, c < df.columns.length →
      symT.get? c = some ((jsSetDedup (columnValues df c)).map (convertRawToSymbol rt)) := by
    intro c hc
    obtain ⟨_, _, _, h4, _⟩ := hcol c hc
    exact h4
  have hmemdedup : ∀ row ∈ df.data, ∀ c, c < df.columns.length →
      cellAt row c ∈ jsSetDedup (columnValues df c) := by
    intro row hrow c _
    refine (mem_jsSetDedup _ _).2 ?_
    unfold columnValues
    exact List.mem_map_of_mem _ hrow
  obtain ⟨idxRows, hmapM, hilen, hipt⟩ := mapM_ok_pointwise (writerRowIndices rt df symT)
    df.data
    (by
      intro row hrow
      obtain ⟨idxs, hidxs, _, _⟩ := writerRowIndices_spec rt df symT
        (fun c => jsSetDedup (columnValues df c)) row hnd hsymget (hmemdedup row hrow)
      exact ⟨idxs, hidxs⟩)
  have hir : writerIndexRows rt df symT = .ok idxRows := hmapM
  have hidxlt : ∀ row2 ∈ idxRows, ∀ i ∈ row2, i < 2 ^ 32 := by
    intro row2 hrow2 i hi
    obtain ⟨row, hrowmem, hwri⟩ := mapM_ok_mem_rev _ _ _ hir row2 hrow2
    obtain ⟨idxs, hidxs, hidxlen, hpt2⟩ := writerRowIndices_spec rt df symT
      (fun c => jsSetDedup (columnValues df c)) row hnd hsymget (hmemdedup row hrowmem)
    rw [hwri] at hidxs
    injection hidxs with he
    subst he
    obtain ⟨c, hc⟩ := List.get?_of_mem hi
    have hclt : c < df.columns.length := by
      have hlt := lt_of_get?_eq_some hc
      omega
    obtain ⟨i2, hi2, hi2lt, _⟩ := hpt2 c hclt
    rw [hc] at hi2
    injection hi2 with he2
    subst he2
    have h1 : (jsSetDedup (columnValues df c)).length ≤ (columnValues df c).length :=
      jsSetDedup_length_le _
    have h2 : (columnValues df c).length = df.data.length := by
      unfold columnValues
      simp
    omega
  obtain ⟨records, hrecs⟩ := writerRows_pack_ok rt df symT idxRows hir hcols
  have hbuild := buildIndexTable_eq_ok rt df symT idxRows records hir hrecs
  refine ⟨buildHeaderLayout df symT symMetas
      (writerMetas df (writerWidths df (writerRowsBits idxRows)))
      records.flatten.length idxRows.length (records.flatten.length / idxRows.length),
    symBuf ++ records.flatten, ?_, ?_⟩
  · simp only [save, hsym, hbuild]
  · have hmetasne : symMetas ≠ [] := by
      intro h0
      rw [h0] at hmlen
      simp at hmlen
      omega
    have hoffset : (buildHeaderLayout df symT symMetas (writerMetas df (writerWidths df (writerRowsBits idxRows))) records.flatten.length idxRows.length (records.flatten.length / idxRows.length)).offset = symBuf.length := by
      show (match symMetas.getLast? with
        | some m => m.1 + m.2
        | none => 0) = symBuf.length
      cases hml : symMetas.getLast? with
      | none => exact absurd (List.getLast?_eq_none_iff.1 hml) hmetasne
      | some m =>
        show m.1 + m.2 = symBuf.length
        have hm := hlast m hml
        omega
    have hfieldsdef : (buildHeaderLayout df symT symMetas (writerMetas df (writerWidths df (writerRowsBits idxRows))) records.flatten.length idxRows.length (records.flatten.length / idxRows.length)).fields =
        (List.range df.columns.length).map (fun i =>
          { fieldName := (df.columns.get? i).getD ""
            bitOffset := (((writerMetas df (writerWidths df (writerRowsBits idxRows))).get? i).getD (0, 0, 0)).1
            bitWidth := (((writerMetas df (writerWidths df (writerRowsBits idxRows))).get? i).getD (0, 0, 0)).2.1
            bias := (((writerMetas df (writerWidths df (writerRowsBits idxRows))).get? i).getD (0, 0, 0)).2.2
            noOfSymbols := ((symT.get? i).getD []).length
            offset := ((symMetas.get? i).getD (0, 0)).1
            length := ((symMetas.get? i).getD (0, 0)).2 }) := rfl
    have hfget : ∀ k, k < df.columns.length →
        ∃ moff mlen, symMetas.get? k = some (moff, mlen) ∧
        ((buildHeaderLayout df symT symMetas (writerMetas df (writerWidths df (writerRowsBits idxRows))) records.flatten.length idxRows.length (records.flatten.length / idxRows.length)).fields).get? k = some
          { fieldName := (df.columns.get? k).getD ""
            bitOffset := writerBitOffset (writerWidths df (writerRowsBits idxRows)) k
            bitWidth := ((writerWidths df (writerRowsBits idxRows)).get? k).getD 0
            bias := 0
            noOfSymbols := ((symT.get? k).getD []).length
            offset := moff
            length := mlen } := by
      intro k hk
      obtain ⟨moff, mlen, hmk, _, _⟩ := hcol k hk
      refine ⟨moff, mlen, hmk, ?_⟩
      rw [hfieldsdef, range_map_get? _ _ _ hk]
      have hwmet : (writerMetas df (writerWidths df (writerRowsBits idxRows))).get? k =
          some (writerBitOffset (writerWidths df (writerRowsBits idxRows)) k,
            ((writerWidths df (writerRowsBits idxRows)).get? k).getD 0, (0 : Int)) := by
        simp only [writerMetas]
        rw [range_map_get? _ _ _ hk]
      rw [hwmet, hmk]
      rfl
    obtain ⟨symT2, hsymparse, hsymlen2, hsympt⟩ := mapM_ok_pointwise
      (fun fm => parseSymbols rt (symBuf.drop fm.offset) fm.length)
      ((buildHeaderLayout df symT symMetas (writerMetas df (writerWidths df (writerRowsBits idxRows))) records.flatten.length idxRows.length (records.flatten.length / idxRows.length)).fields)
      (by
        intro fm hfm
        rw [hfieldsdef] at hfm
        obtain ⟨k, hkmem, hkfm⟩ := List.mem_map.1 hfm
        have hk : k < df.columns.length := List.mem_range.1 hkmem
        obtain ⟨moff, mlen, hmk, _, syms2, hp, _, _⟩ := hcol k hk
        refine ⟨syms2, ?_⟩
        rw [← hkfm]
        show parseSymbols rt (symBuf.drop ((symMetas.get? k).getD (0, 0)).1)
          ((symMetas.get? k).getD (0, 0)).2 = .ok syms2
        rw [hmk]
        exact hp)
    have htake : ((symBuf ++ records.flatten).take (buildHeaderLayout df symT symMetas (writerMetas df (writerWidths df (writerRowsBits idxRows))) records.flatten.length idxRows.length (records.flatten.length / idxRows.length)).offset) = symBuf := by
      rw [hoffset]
      exact List.take_left _ _
    have hps : parseSymbolTables rt (buildHeaderLayout df symT symMetas (writerMetas df (writerWidths df (writerRowsBits idxRows))) records.flatten.length idxRows.length (records.flatten.length / idxRows.length)).fields
        ((symBuf ++ records.flatten).take (buildHeaderLayout df symT symMetas (writerMetas df (writerWidths df (writerRowsBits idxRows))) records.flatten.length idxRows.length (records.flatten.length / idxRows.length)).offset) = .ok symT2 := by
      unfold parseSymbolTables
      rw [htake]
      exact hsymparse
    have hdroptake : (((symBuf ++ records.flatten).drop (buildHeaderLayout df symT symMetas (writerMetas df (writerWidths df (writerRowsBits idxRows))) records.flatten.length idxRows.length (records.flatten.length / idxRows.length)).offset).take
        ((buildHeaderLayout df symT symMetas (writerMetas df (writerWidths df (writerRowsBits idxRows))) records.flatten.length idxRows.length (records.flatten.length / idxRows.length)).length + 1)) = records.flatten := by
      rw [hoffset, List.drop_left]
      show records.flatten.take (records.flatten.length + 1) = records.flatten
      exact List.take_of_length_le (by omega)
    obtain ⟨hu1, hu2, hparse⟩ := buildIndexTable_decode rt df symT idxRows records.flatten
      (writerMetas df (writerWidths df (writerRowsBits idxRows)))
      (records.flatten.length / idxRows.length)
      ((buildHeaderLayout df symT symMetas (writerMetas df (writerWidths df (writerRowsBits idxRows))) records.flatten.length idxRows.length (records.flatten.length / idxRows.length)).fields) hbuild hcols hidxlt
      (by rw [hfieldsdef]; simp)
      (by
        intro k hk
        obtain ⟨moff, mlen, hmk, hfk⟩ := hfget k hk
        exact ⟨_, hfk, rfl, rfl, rfl⟩)
    have hpi : parseIndexTable (buildHeaderLayout df symT symMetas (writerMetas df (writerWidths df (writerRowsBits idxRows))) records.flatten.length idxRows.length (records.flatten.length / idxRows.length)).fields
        (buildHeaderLayout df symT symMetas (writerMetas df (writerWidths df (writerRowsBits idxRows))) records.flatten.length idxRows.length (records.flatten.length / idxRows.length)).recordByteSize
        (((symBuf ++ records.flatten).drop (buildHeaderLayout df symT symMetas (writerMetas df (writerWidths df (writerRowsBits idxRows))) records.flatten.length idxRows.length (records.flatten.length / idxRows.length)).offset).take
          ((buildHeaderLayout df symT symMetas (writerMetas df (writerWidths df (writerRowsBits idxRows))) records.flatten.length idxRows.length (records.flatten.length / idxRows.length)).length + 1)) = .ok (idxRows.map (fun r => r.map Int.ofNat)) := by
      rw [hdroptake]
      show parseIndexTable (buildHeaderLayout df symT symMetas (writerMetas df (writerWidths df (writerRowsBits idxRows))) records.flatten.length idxRows.length (records.flatten.length / idxRows.length)).fields
        (records.flatten.length / idxRows.length) records.flatten = _
      exact hparse
    have hnames : ((buildHeaderLayout df symT symMetas (writerMetas df (writerWidths df (writerRowsBits idxRows))) records.flatten.length idxRows.length (records.flatten.length / idxRows.length)).fields).map (fun fm => fm.fieldName) = df.columns := by
      rw [hfieldsdef, List.map_map]
      show (List.range df.columns.length).map (fun i => (df.columns.get? i).getD "") =
        df.columns
      exact range_map_getD df.columns ""
    have hrows : (idxRows.map (fun r => r.map Int.ofNat)).map (getRowCells rt symT2) =
        df.data := by
      apply List.ext_getElem?
      intro r
      by_cases hr : r < df.data.length
      · obtain ⟨row, hrowg⟩ := get?_some_of_lt df.data r hr
        obtain ⟨idxs, hidxg, hwr⟩ := hipt r row hrowg
        obtain ⟨idxs2, hidxs2, hidxlen2, hpt2⟩ := writerRowIndices_spec rt df symT
          (fun c => jsSetDedup (columnValues df c)) row hnd hsymget
          (hmemdedup row (List.get?_mem hrowg))
        rw [hwr] at hidxs2
        injection hidxs2 with he
        subst he
        rw [List.getElem?_map, List.getElem?_map]
        have hidxg2 : idxRows[r]? = some idxs := by
          rw [← List.get?_eq_getElem?]
          exact hidxg
        have hrowg2 : df.data[r]? = some row := by
          rw [← List.get?_eq_getElem?]
          exact hrowg
        rw [hidxg2, hrowg2, Option.map_some', Option.map_some']
        have hrl : row.length = df.columns.length := hrect row (List.get?_mem hrowg)
        have hcell : getRowCells rt symT2 (idxs.map Int.ofNat) = row := by
          unfold getRowCells
          apply List.ext_getElem?
          intro c
          by_cases hc : c < df.columns.length
          · obtain ⟨i, hig, hilt2, hiuniq⟩ := hpt2 c hc
            obtain ⟨moff, mlen, hmk, hfk⟩ := hfget c hc
            obtain ⟨y, hy, hyp⟩ := hsympt c _ hfk
            obtain ⟨moff2, mlen2, hmk2, hsg2, syms2, hp, hmapval, hlenval⟩ := hcol c hc
            rw [hmk] at hmk2
            injection hmk2 with hmm
            injection hmm with hm1 hm2
            subst hm1
            subst hm2
            have hyp2 : parseSymbols rt (symBuf.drop moff) mlen = .ok y := hyp
            rw [hyp2] at hp
            injection hp with hys
            subst hys
            have hlook : lookupSymbol symT2 c (Int.ofNat i) = y.get? i := by
              unfold lookupSymbol
              rw [hy]
              show (if (Int.ofNat i : Int) < 0 then none
                else y.get? (Int.ofNat i).toNat) = y.get? i
              split
              next hneg => exact absurd hneg (Int.ofNat_nonneg i).not_lt
              next => rfl
            have hfi : (y.map (fun s2 => symbolCellValue rt (some s2))).get? i =
                some (cellAt row c) := by
              rw [hmapval]
              exact hiuniq
            rw [List.get?_map] at hfi
            cases hsg : y.get? i with
            | none =>
              rw [hsg] at hfi
              cases hfi
            | some s =>
              rw [hsg] at hfi
              simp only [Option.map_some'] at hfi
              injection hfi with hfv
              rw [List.getElem?_map, List.enum_eq_enumFrom, List.getElem?_enumFrom]
              have h1 : (idxs.map Int.ofNat)[c]? = some (Int.ofNat i) := by
                rw [List.getElem?_map, ← List.get?_eq_getElem?, hig]
                rfl
              rw [h1]
              have h2 : row[c]? = some (cellAt row c) := by
                obtain ⟨x, hx⟩ := get?_some_of_lt row c (by omega)
                rw [← List.get?_eq_getElem?, hx]
                unfold cellAt
                rw [hx]
                rfl
              rw [h2]
              simp only [Option.map_some']
              show some (symbolCellValue rt (lookupSymbol symT2 (0 + c) (Int.ofNat i))) =
                some (cellAt row c)
              rw [Nat.zero_add, hlook, hsg]
              exact congrArg some hfv
          · rw [List.getElem?_eq_none (by
                rw [List.length_map, List.enum_eq_enumFrom, List.enumFrom_length,
                  List.length_map]
                omega),
              List.getElem?_eq_none (by omega)]
        show some (getRowCells rt symT2 (idxs.map Int.ofNat)) = some row
        rw [hcell]
      · rw [List.getElem?_eq_none (by rw [List.length_map, List.length_map]; omega),
          List.getElem?_eq_none (by omega)]
    simp only [load, hps, hpi]
    rw [hnames, hrows]

/-- Witness for C1 on a one-column, two-row table. -/
theorem c1_round_trip_witness :
    ∃ layout buf, save testRt ⟨["A"], [[Cell.num 1], [Cell.num 2]]⟩ = .ok (layout, buf) ∧
      load testRt layout buf = .ok ⟨["A"], [[Cell.num 1], [Cell.num 2]]⟩ :=
  c1_round_trip testRt ⟨["A"], [[Cell.num 1], [Cell.num 2]]⟩
    (by decide) (by decide) (by decide) (by decide) (by decide)

end Qvd
